import Mathlib

/-!
# NestedTable: the forest of rows and the handlers of the component

A shallow embedding of `src/NestedTable.js`.  A JavaScript row object is a value of `Row`;
`null` ids and an absent `nestedData` property are kept (`Option`), because the code
tests for both.  A function that can throw a `TypeError` returns `Option`, `none` being
the throw.  `uuidv4()` is an input of the handler that calls it.
-/

/-- A row object: `id` is `null` or a string, `nestedData` is absent (`none`) or an array.
The form draft `newRow` is a row object as well (without `nestedData` until `editRow`
stores a row of the forest in it). -/
inductive Row where
  | mk (id : Option String) (firstName lastName description : String)
      (nestedData : Option (List Row)) : Row

namespace Row

/-- Property `row.id`. -/
def id : Row → Option String
  | .mk i _ _ _ _ => i

/-- Property `row.firstName`. -/
def firstName : Row → String
  | .mk _ f _ _ _ => f

/-- Property `row.lastName`. -/
def lastName : Row → String
  | .mk _ _ l _ _ => l

/-- Property `row.description`. -/
def description : Row → String
  | .mk _ _ _ d _ => d

/-- Property `row.nestedData`; `none` is `undefined`. -/
def nestedData : Row → Option (List Row)
  | .mk _ _ _ _ n => n

end Row

mutual
/-- The callback that `updateRowRecursive` maps over `rows` (lines 38-48): a row whose id
is `id` becomes a copy of `updatedRow` (its id included) carrying the row's own `nestedData`;
another row with a non-empty `nestedData` is copied with its children updated; any other
row is returned as it is. -/
def updateRowMapFn (id : Option String) (updatedRow : Row) : Row → Row
  | .mk rid fn ln d nd =>
    if rid = id then
      .mk updatedRow.id updatedRow.firstName updatedRow.lastName updatedRow.description nd
    else
      match nd with
      | some kids =>
        if kids.length > 0 then
          .mk rid fn ln d (some (updateRowRecursive kids id updatedRow))
        else .mk rid fn ln d nd
      | none => .mk rid fn ln d nd
/-- Function `updateRowRecursive(rows, id, updatedRow)`, lines 37-49. -/
def updateRowRecursive : List Row → Option String → Row → List Row
  | [], _, _ => []
  | row :: rest, id, updatedRow =>
    updateRowMapFn id updatedRow row :: updateRowRecursive rest id updatedRow
end

mutual
/-- The body of the loop of `findRowById` on one row (lines 59-63): the value that the
loop returns at this row, which is the row itself when its id matches and else the result
of the search in a non-empty `nestedData` when that is found; `none` when the loop goes on
with the next row. -/
def findRowByIdLoopBody (id : Option String) : Row → Option Row
  | .mk rid fn ln d nd =>
    if rid = id then some (.mk rid fn ln d nd)
    else
      match nd with
      | some kids =>
        if kids.length > 0 then
          match findRowById kids id with
          | some nestedResult => some nestedResult
          | none => none
        else none
      | none => none
/-- Function `findRowById(rows, id)`, lines 57-66; `none` is `null`. -/
def findRowById : List Row → Option String → Option Row
  | [], _ => none
  | row :: rest, id =>
    match findRowByIdLoopBody id row with
    | some result => some result
    | none => findRowById rest id
end

mutual
/-- The callback that `deleteRowRecursive` maps over the rows that passed the filter
(lines 76-79): the row is copied with `deleteRowRecursive(row.nestedData, id)`; on a row
without `nestedData` that call reads `undefined.filter` and throws. -/
def deleteRowMapFn (id : Option String) : Row → Option Row
  | .mk rid fn ln d nd =>
    match nd with
    | some kids =>
      match deleteRowRecursive kids id with
      | some kids' => some (.mk rid fn ln d (some kids'))
      | none => none
    | none => none
/-- Function `deleteRowRecursive(rows, id)`, lines 73-80: rows whose id is `id` are
filtered out, the others are mapped; `none` when a callback throws. -/
def deleteRowRecursive : List Row → Option String → Option (List Row)
  | [], _ => some []
  | row :: rest, id =>
    if row.id ≠ id then
      match deleteRowMapFn id row, deleteRowRecursive rest id with
      | some row', some rest' => some (row' :: rest')
      | _, _ => none
    else deleteRowRecursive rest id
end

mutual
/-- The callback that `addNestedRowRecursive` maps over `rows` (lines 107-117): a row whose
id is `parentId` is copied with `[...row.nestedData, newRow]`, which throws when
`nestedData` is `undefined`; another row with a non-empty `nestedData` is copied with its
children processed; any other row is returned as it is. -/
def addNestedRowMapFn (parentId : Option String) (newRow : Row) : Row → Option Row
  | .mk rid fn ln d nd =>
    if rid = parentId then
      match nd with
      | some kids => some (.mk rid fn ln d (some (kids ++ [newRow])))
      | none => none
    else
      match nd with
      | some kids =>
        if kids.length > 0 then
          match addNestedRowRecursive kids parentId newRow with
          | some kids' => some (.mk rid fn ln d (some kids'))
          | none => none
        else some (.mk rid fn ln d nd)
      | none => some (.mk rid fn ln d nd)
/-- Function `addNestedRowRecursive(rows, parentId, newRow)`, lines 106-118; `none` when a
callback throws. -/
def addNestedRowRecursive : List Row → Option String → Row → Option (List Row)
  | [], _, _ => some []
  | row :: rest, parentId, newRow =>
    match addNestedRowMapFn parentId newRow row, addNestedRowRecursive rest parentId newRow with
    | some row', some rest' => some (row' :: rest')
    | _, _ => none
end

/-- The state of the component: the five `useState` cells of lines 9-18. -/
structure NestedTable where
  data : List Row
  newRow : Row
  isEditing : Bool
  modalIsOpen : Bool
  currentParentId : Option String

/-- The empty draft `{ id: null, firstName: "", lastName: "", description: "" }`. -/
def emptyRow : Row := .mk none "" "" "" none

/-- The initial state, lines 9-18. -/
def NestedTable.init : NestedTable :=
  { data := [], newRow := emptyRow, isEditing := false, modalIsOpen := false,
    currentParentId := none }

/-- The `name` attribute of the three inputs that call `handleInputChange`
(lines 159-179 and 204-224). -/
inductive InputName where
  | firstName
  | lastName
  | description

/-- Object `{ ...prev, [name]: value }` of line 22. -/
def Row.setInput : Row → InputName → String → Row
  | .mk i _ l d n, .firstName, value => .mk i value l d n
  | .mk i f _ d n, .lastName, value => .mk i f value d n
  | .mk i f l _ n, .description, value => .mk i f l value n

/-- Handler `handleInputChange`, lines 20-23. -/
def handleInputChange (s : NestedTable) (name : InputName) (value : String) : NestedTable :=
  { s with newRow := s.newRow.setInput name value }

/-- Handler `addOrUpdateRow`, lines 25-35; `uuid` is what `uuidv4()` returns on line 31
(the call is made in the create branch only). -/
def addOrUpdateRow (s : NestedTable) (uuid : String) : NestedTable :=
  if s.isEditing then
    { s with
      data := updateRowRecursive s.data s.newRow.id s.newRow
      isEditing := false
      newRow := emptyRow
      currentParentId := none }
  else
    { s with
      data := s.data ++
        [.mk (some uuid) s.newRow.firstName s.newRow.lastName s.newRow.description (some [])]
      newRow := emptyRow
      currentParentId := none }

/-- Handler `editRow`, lines 51-55.  When the search returns `null` the draft becomes
`null` and the next render reads `newRow.firstName` of it (line 163) and throws: `none`. -/
def editRow (s : NestedTable) (id : Option String) : Option NestedTable :=
  match findRowById s.data id with
  | some rowToEdit => some { s with newRow := rowToEdit, isEditing := true }
  | none => none

/-- Handler `deleteRow`, lines 68-71; `none` when `deleteRowRecursive` throws. -/
def deleteRow (s : NestedTable) (id : Option String) : Option NestedTable :=
  match deleteRowRecursive s.data id with
  | some updatedData => some { s with data := updatedData }
  | none => none

/-- Handler `openModal`, lines 82-86. -/
def openModal (s : NestedTable) (parentId : Option String) : NestedTable :=
  { s with currentParentId := parentId, newRow := emptyRow, modalIsOpen := true }

/-- Handler `closeModal`, lines 88-92. -/
def closeModal (s : NestedTable) : NestedTable :=
  { s with modalIsOpen := false, newRow := emptyRow, currentParentId := none }

/-- Handler `addNestedRow`, lines 94-104; `uuid` is what `uuidv4()` returns on line 96;
`none` when `addNestedRowRecursive` throws. -/
def addNestedRow (s : NestedTable) (uuid : String) : Option NestedTable :=
  match addNestedRowRecursive s.data s.currentParentId
      (.mk (some uuid) s.newRow.firstName s.newRow.lastName s.newRow.description (some [])) with
  | some updatedData => some (closeModal { s with data := updatedData })
  | none => none

/-- One user action on the component, with the identifier that `uuidv4()` yields during
it where the handler calls `uuidv4()`. -/
inductive UserAction where
  | handleInputChange (name : InputName) (value : String)
  | addOrUpdateRow (uuid : String)
  | editRow (id : Option String)
  | deleteRow (id : Option String)
  | openModal (parentId : Option String)
  | closeModal
  | addNestedRow (uuid : String)

/-- The handler that an action runs. -/
def dispatch (s : NestedTable) : UserAction → Option NestedTable
  | .handleInputChange name value => some (handleInputChange s name value)
  | .addOrUpdateRow uuid => some (addOrUpdateRow s uuid)
  | .editRow id => editRow s id
  | .deleteRow id => deleteRow s id
  | .openModal parentId => some (openModal s parentId)
  | .closeModal => some (closeModal s)
  | .addNestedRow uuid => addNestedRow s uuid

/-- The state after a sequence of actions; `none` as soon as a handler throws. -/
def run : NestedTable → List UserAction → Option NestedTable
  | s, [] => some s
  | s, a :: rest =>
    match dispatch s a with
    | some s' => run s' rest
    | none => none

/-! ## Vocabulary of the properties -/

mutual
/-- The nodes of the subtree of a row in depth-first pre-order: the row, then the nodes
of its children in stored order. -/
def preorderRow : Row → List Row
  | .mk rid fn ln d nd =>
    .mk rid fn ln d nd :: (match nd with
      | some kids => preorder kids
      | none => [])
/-- The nodes of a forest in depth-first pre-order. -/
def preorder : List Row → List Row
  | [] => []
  | row :: rest => preorderRow row ++ preorder rest
end

/-- The ids of all nodes of a forest, at every depth, in pre-order. -/
def ids (rows : List Row) : List (Option String) :=
  (preorder rows).map Row.id

/-- The ids of a row and of all its descendants. -/
def idsRow (row : Row) : List (Option String) :=
  (preorderRow row).map Row.id

/-- The proper descendants of a row, in pre-order. -/
def Row.descendants : Row → List Row
  | .mk _ _ _ _ (some kids) => preorder kids
  | .mk _ _ _ _ none => []

/-- A forest is well formed when every node, at every depth, has a children sequence. -/
def wellFormed (rows : List Row) : Prop :=
  ∀ row ∈ preorder rows, row.nestedData.isSome = true

instance (rows : List Row) : Decidable (wellFormed rows) := by
  unfold wellFormed
  infer_instance

/-- Every node of the forest has an identifier (no node has the id `null`). -/
def idsAssigned (rows : List Row) : Prop :=
  none ∉ ids rows

instance (rows : List Row) : Decidable (idsAssigned rows) := by
  unfold idsAssigned
  infer_instance

/-- What a node carries apart from its children: its id and its three field values. -/
structure Label where
  id : Option String
  firstName : String
  lastName : String
  description : String
deriving DecidableEq

/-- The label of a row. -/
def Row.label : Row → Label
  | .mk i f l d _ => ⟨i, f, l, d⟩

/-- The labels of the children of a row in stored order; `none` when the row has no
children sequence. -/
def Row.childLabels (row : Row) : Option (List Label) :=
  row.nestedData.map (fun kids => kids.map Row.label)

mutual
/-- The row with every label of its subtree replaced through `g`; the shape is kept. -/
def relabelRow (g : Label → Label) : Row → Row
  | .mk i f l d nd =>
    .mk (g ⟨i, f, l, d⟩).id (g ⟨i, f, l, d⟩).firstName (g ⟨i, f, l, d⟩).lastName
      (g ⟨i, f, l, d⟩).description
      (match nd with
        | some kids => some (relabel g kids)
        | none => none)
/-- The forest with every label replaced through `g`: same nodes, same nesting, same
order. -/
def relabel (g : Label → Label) : List Row → List Row
  | [] => []
  | row :: rest => relabelRow g row :: relabel g rest
end

/-- The relabelling that the specification gives for an update: the node whose id is `id`
takes the field values of `r` and keeps its id; every other label is kept. -/
def setFields (id : Option String) (r : Row) (l : Label) : Label :=
  if l.id = id then ⟨l.id, r.firstName, r.lastName, r.description⟩ else l

/-- The node at a position of the forest: `[i]` is root `i`, `i :: path` is the node at
`path` among the children of root `i`. -/
def nodeAt : List Row → List Nat → Option Row
  | _, [] => none
  | rows, [i] => rows[i]?
  | rows, i :: j :: path =>
    match rows[i]? with
    | some (.mk _ _ _ _ (some kids)) => nodeAt kids (j :: path)
    | _ => none

/-- The identifier that `uuidv4()` yields during an action in state `s`, when the handler
calls it: `addOrUpdateRow` calls it in the create branch only, `addNestedRow` always. -/
def generatedId (s : NestedTable) : UserAction → Option String
  | .addOrUpdateRow uuid => if s.isEditing then none else some uuid
  | .addNestedRow uuid => some uuid
  | _ => none

/-- Every identifier generated along the actions differs from every id that the forest
holds at the time it is generated. -/
def freshIds : NestedTable → List UserAction → Bool
  | _, [] => true
  | s, a :: rest =>
    (match generatedId s a with
      | some uuid => decide (some uuid ∉ ids s.data)
      | none => true) &&
    (match dispatch s a with
      | some s' => freshIds s' rest
      | none => true)

/-- One root insertion as the user makes it: the field values typed into the form and
the identifier generated when the button is pressed. -/
structure RootCall where
  firstName : String
  lastName : String
  description : String
  uuid : String

/-- The actions of one root insertion: the three inputs of the form are filled in, then
the button of line 180 is pressed. -/
def insertRootActions (c : RootCall) : List UserAction :=
  [.handleInputChange .firstName c.firstName, .handleInputChange .lastName c.lastName,
    .handleInputChange .description c.description, .addOrUpdateRow c.uuid]

/-- The actions of a sequence of root insertions, in call order. -/
def insertRootsActions : List RootCall → List UserAction
  | [] => []
  | c :: rest => insertRootActions c ++ insertRootsActions rest

/-- The state after values are typed into inputs of the form, in order. -/
def typeInputs : NestedTable → List (InputName × String) → NestedTable
  | s, [] => s
  | s, (name, value) :: rest => typeInputs (handleInputChange s name value) rest

/-! ## Basic facts -/

/-- Induction over forests: a property of forests that holds for the empty forest and
passes from the children and the later siblings of a row to the forest that starts with
that row holds for every forest. -/
theorem forest_induction {P : List Row → Prop} (hnil : P [])
    (hnone : ∀ i f l d rest, P rest → P (Row.mk i f l d none :: rest))
    (hsome : ∀ i f l d kids rest, P kids → P rest → P (Row.mk i f l d (some kids) :: rest)) :
    ∀ rows, P rows
  | [] => hnil
  | Row.mk i f l d none :: rest => hnone i f l d rest (forest_induction hnil hnone hsome rest)
  | Row.mk i f l d (some kids) :: rest =>
    hsome i f l d kids rest (forest_induction hnil hnone hsome kids)
      (forest_induction hnil hnone hsome rest)

/-! ## The recursive functions as `map`, `filter` and loop -/

/-- The list function `updateRowRecursive` is `rows.map` of its callback. -/
theorem updateRowRecursive_eq_map (id : Option String) (updatedRow : Row) (rows : List Row) :
    updateRowRecursive rows id updatedRow = rows.map (updateRowMapFn id updatedRow) := by
  induction rows with
  | nil => simp [updateRowRecursive]
  | cons row rest ih => simp [updateRowRecursive, ih]

/-- The list function `deleteRowRecursive` is `rows.filter(...).map(...)`, the map
throwing when a callback throws. -/
theorem deleteRowRecursive_eq_filter_mapM (id : Option String) (rows : List Row) :
    deleteRowRecursive rows id
      = (rows.filter (fun row => decide (row.id ≠ id))).mapM (deleteRowMapFn id) := by
  induction rows with
  | nil =>
    simp only [deleteRowRecursive, List.filter_nil, List.mapM_nil]
    rfl
  | cons row rest ih =>
    by_cases h : row.id = id
    · simp [deleteRowRecursive, h, ih]
    · simp only [deleteRowRecursive, ne_eq, h, not_false_eq_true, if_true, decide_True,
        List.filter_cons_of_pos, List.mapM_cons, ih]
      cases deleteRowMapFn id row <;>
        cases (rest.filter (fun row => decide (row.id ≠ id))).mapM (deleteRowMapFn id) <;> rfl

/-- The list function `addNestedRowRecursive` is `rows.map` of its callback, throwing when
a callback throws. -/
theorem addNestedRowRecursive_eq_mapM (parentId : Option String) (newRow : Row)
    (rows : List Row) :
    addNestedRowRecursive rows parentId newRow
      = rows.mapM (addNestedRowMapFn parentId newRow) := by
  induction rows with
  | nil =>
    simp only [addNestedRowRecursive, List.mapM_nil]
    rfl
  | cons row rest ih =>
    simp only [addNestedRowRecursive, List.mapM_cons, ih]
    cases addNestedRowMapFn parentId newRow row <;>
      cases rest.mapM (addNestedRowMapFn parentId newRow) <;> rfl

/-- The list function `findRowById` returns what the first pass of the loop body that
returns a row returns, and `null` when no pass returns. -/
theorem findRowById_eq_findSome (id : Option String) (rows : List Row) :
    findRowById rows id = rows.findSome? (findRowByIdLoopBody id) := by
  induction rows with
  | nil => simp [findRowById]
  | cons row rest ih =>
    simp only [findRowById, List.findSome?_cons, ih]
    cases findRowByIdLoopBody id row <;> rfl

@[simp] theorem Row.id_mk (i : Option String) (f l d : String) (n : Option (List Row)) :
    (Row.mk i f l d n).id = i := rfl

@[simp] theorem Row.firstName_mk (i : Option String) (f l d : String) (n : Option (List Row)) :
    (Row.mk i f l d n).firstName = f := rfl

@[simp] theorem Row.lastName_mk (i : Option String) (f l d : String) (n : Option (List Row)) :
    (Row.mk i f l d n).lastName = l := rfl

@[simp] theorem Row.description_mk (i : Option String) (f l d : String)
    (n : Option (List Row)) : (Row.mk i f l d n).description = d := rfl

@[simp] theorem Row.nestedData_mk (i : Option String) (f l d : String)
    (n : Option (List Row)) : (Row.mk i f l d n).nestedData = n := rfl

@[simp] theorem Row.label_mk (i : Option String) (f l d : String) (n : Option (List Row)) :
    (Row.mk i f l d n).label = ⟨i, f, l, d⟩ := rfl

@[simp] theorem preorder_nil : preorder [] = [] := by
  simp [preorder]

@[simp] theorem preorder_cons_none (i : Option String) (f l d : String) (rest : List Row) :
    preorder (Row.mk i f l d none :: rest) = Row.mk i f l d none :: preorder rest := by
  simp [preorder, preorderRow]

@[simp] theorem preorder_cons_some (i : Option String) (f l d : String) (kids rest : List Row) :
    preorder (Row.mk i f l d (some kids) :: rest)
      = Row.mk i f l d (some kids) :: (preorder kids ++ preorder rest) := by
  simp [preorder, preorderRow]

@[simp] theorem ids_nil : ids [] = [] := by
  simp [ids]

@[simp] theorem ids_cons_none (i : Option String) (f l d : String) (rest : List Row) :
    ids (Row.mk i f l d none :: rest) = i :: ids rest := by
  simp [ids]

@[simp] theorem ids_cons_some (i : Option String) (f l d : String) (kids rest : List Row) :
    ids (Row.mk i f l d (some kids) :: rest) = i :: (ids kids ++ ids rest) := by
  simp [ids]

theorem preorder_append (xs ys : List Row) : preorder (xs ++ ys) = preorder xs ++ preorder ys := by
  induction xs with
  | nil => simp
  | cons x xs ih => simp [preorder, ih]

theorem ids_append (xs ys : List Row) : ids (xs ++ ys) = ids xs ++ ids ys := by
  simp [ids, preorder_append]

@[simp] theorem wellFormed_nil : wellFormed [] := by
  simp [wellFormed]

@[simp] theorem wellFormed_cons_none (i : Option String) (f l d : String) (rest : List Row) :
    ¬ wellFormed (Row.mk i f l d none :: rest) := by
  simp [wellFormed]

@[simp] theorem wellFormed_cons_some (i : Option String) (f l d : String) (kids rest : List Row) :
    wellFormed (Row.mk i f l d (some kids) :: rest) ↔ wellFormed kids ∧ wellFormed rest := by
  simp only [wellFormed, preorder_cons_some, List.mem_cons, List.mem_append]
  constructor
  · intro h
    exact ⟨fun r hr => h r (Or.inr (Or.inl hr)), fun r hr => h r (Or.inr (Or.inr hr))⟩
  · rintro ⟨h1, h2⟩ r (rfl | hr | hr)
    · simp
    · exact h1 r hr
    · exact h2 r hr

theorem countP_eq_one {xs : List (Option String)} {a : Option String} (hnd : xs.Nodup)
    (hmem : a ∈ xs) : xs.countP (fun i => decide (i = a)) = 1 := by
  have h := List.count_eq_one_of_mem hnd hmem
  simpa [List.count, beq_iff_eq] using h

/-! ## Operations on an id that is absent -/

theorem updateRowRecursive_absent (id : Option String) (r : Row) :
    ∀ rows : List Row, id ∉ ids rows → updateRowRecursive rows id r = rows := by
  intro rows
  induction rows using forest_induction with
  | hnil => intro _; simp [updateRowRecursive]
  | hnone i f l d rest ih =>
    intro h
    simp only [ids_cons_none, List.mem_cons, not_or] at h
    simp [updateRowRecursive, updateRowMapFn, ih h.2, Ne.symm h.1]
  | hsome i f l d kids rest ihk ihr =>
    intro h
    simp only [ids_cons_some, List.mem_cons, List.mem_append, not_or] at h
    simp [updateRowRecursive, updateRowMapFn, ihk h.2.1, ihr h.2.2, Ne.symm h.1]

theorem deleteRowRecursive_absent (id : Option String) :
    ∀ rows : List Row, wellFormed rows → id ∉ ids rows → deleteRowRecursive rows id = some rows := by
  intro rows
  induction rows using forest_induction with
  | hnil => intro _ _; simp [deleteRowRecursive]
  | hnone i f l d rest ih => intro hwf; simp at hwf
  | hsome i f l d kids rest ihk ihr =>
    intro hwf h
    simp only [ids_cons_some, List.mem_cons, List.mem_append, not_or] at h
    simp only [wellFormed_cons_some] at hwf
    simp [deleteRowRecursive, deleteRowMapFn, ihk hwf.1 h.2.1, ihr hwf.2 h.2.2,
      Ne.symm h.1]

theorem addNestedRowRecursive_absent (id : Option String) (n : Row) :
    ∀ rows : List Row, id ∉ ids rows → addNestedRowRecursive rows id n = some rows := by
  intro rows
  induction rows using forest_induction with
  | hnil => intro _; simp [addNestedRowRecursive]
  | hnone i f l d rest ih =>
    intro h
    simp only [ids_cons_none, List.mem_cons, not_or] at h
    simp [addNestedRowRecursive, addNestedRowMapFn, ih h.2, Ne.symm h.1]
  | hsome i f l d kids rest ihk ihr =>
    intro h
    simp only [ids_cons_some, List.mem_cons, List.mem_append, not_or] at h
    simp [addNestedRowRecursive, addNestedRowMapFn, ihk h.2.1, ihr h.2.2, Ne.symm h.1]

@[simp] theorem findRowById_nil (id : Option String) : findRowById [] id = none := by
  simp [findRowById]

@[simp] theorem findRowById_cons_none (i : Option String) (f l d : String) (rest : List Row)
    (id : Option String) :
    findRowById (Row.mk i f l d none :: rest) id
      = if i = id then some (Row.mk i f l d none) else findRowById rest id := by
  by_cases h : i = id <;> simp [findRowById, findRowByIdLoopBody, h]

@[simp] theorem findRowById_cons_some (i : Option String) (f l d : String)
    (kids rest : List Row) (id : Option String) :
    findRowById (Row.mk i f l d (some kids) :: rest) id
      = if i = id then some (Row.mk i f l d (some kids))
        else if kids.length > 0 then
          match findRowById kids id with
          | some nestedResult => some nestedResult
          | none => findRowById rest id
        else findRowById rest id := by
  by_cases h : i = id
  · simp [findRowById, findRowByIdLoopBody, h]
  · by_cases hlen : kids.length > 0
    · cases hk : findRowById kids id <;> simp [findRowById, findRowByIdLoopBody, h, hlen, hk]
    · simp [findRowById, findRowByIdLoopBody, h, hlen]

/-! ## The search -/

theorem findRowById_eq_find (id : Option String) :
    ∀ rows : List Row,
      findRowById rows id = (preorder rows).find? (fun row => decide (row.id = id)) := by
  intro rows
  induction rows using forest_induction with
  | hnil => simp
  | hnone i f l d rest ih =>
    by_cases h : i = id
    · simp [h]
    · simp [h, ih, List.find?_cons]
  | hsome i f l d kids rest ihk ihr =>
    by_cases h : i = id
    · simp [h]
    · by_cases hlen : kids.length > 0
      · simp only [findRowById_cons_some, h, if_false, hlen, if_true,
          preorder_cons_some, List.find?_cons, Row.id_mk, decide_False, List.find?_append]
        rw [ihk, ihr]
        cases (preorder kids).find? (fun row => decide (row.id = id)) <;> simp
      · have hnil : kids = [] := by simpa using hlen
        subst hnil
        simp [h, ihr, List.find?_cons]

theorem findRowById_eq_none_iff (id : Option String) (rows : List Row) :
    findRowById rows id = none ↔ id ∉ ids rows := by
  rw [findRowById_eq_find, List.find?_eq_none]
  simp only [ids, List.mem_map, decide_eq_true_eq, not_exists, not_and]

theorem findRowById_id {id : Option String} {rows : List Row} {n : Row}
    (h : findRowById rows id = some n) : n.id = id := by
  rw [findRowById_eq_find] at h
  simpa using List.find?_some h

theorem findRowById_mem {id : Option String} {rows : List Row} {n : Row}
    (h : findRowById rows id = some n) : n ∈ preorder rows := by
  rw [findRowById_eq_find] at h
  exact List.mem_of_find?_eq_some h

/-! ## Update -/

@[simp] theorem relabel_nil (g : Label → Label) : relabel g [] = [] := by
  simp [relabel]

theorem relabel_setFields_absent (id : Option String) (r : Row) :
    ∀ rows : List Row, id ∉ ids rows → relabel (setFields id r) rows = rows := by
  intro rows
  induction rows using forest_induction with
  | hnil => intro _; simp
  | hnone i f l d rest ih =>
    intro h
    simp only [ids_cons_none, List.mem_cons, not_or] at h
    simp [relabel, relabelRow, setFields, ih h.2, Ne.symm h.1]
  | hsome i f l d kids rest ihk ihr =>
    intro h
    simp only [ids_cons_some, List.mem_cons, List.mem_append, not_or] at h
    simp [relabel, relabelRow, setFields, ihk h.2.1, ihr h.2.2, Ne.symm h.1]

theorem updateRowRecursive_eq_relabel (id : Option String) (r : Row) (hr : r.id = id) :
    ∀ rows : List Row, (ids rows).Nodup →
      updateRowRecursive rows id r = relabel (setFields id r) rows := by
  intro rows
  induction rows using forest_induction with
  | hnil => intro _; simp [updateRowRecursive]
  | hnone i f l d rest ih =>
    intro h
    simp only [ids_cons_none, List.nodup_cons] at h
    by_cases hi : i = id
    · simp [updateRowRecursive, updateRowMapFn, relabel, relabelRow, setFields, ih h.2, hi, hr]
    · simp [updateRowRecursive, updateRowMapFn, relabel, relabelRow, setFields, ih h.2, hi]
  | hsome i f l d kids rest ihk ihr =>
    intro h
    simp only [ids_cons_some, List.nodup_cons, List.mem_append, not_or, List.nodup_append] at h
    obtain ⟨⟨hik, _⟩, hk, hrest, _⟩ := h
    by_cases hi : i = id
    · subst hi
      simp [updateRowRecursive, updateRowMapFn, relabel, relabelRow, setFields, ihr hrest, hr,
        relabel_setFields_absent i r kids hik]
    · by_cases hlen : kids.length > 0
      · simp [updateRowRecursive, updateRowMapFn, relabel, relabelRow, setFields, ihr hrest, hi,
          ihk hk, hlen]
      · have hnil : kids = [] := by simpa using hlen
        subst hnil
        simp [updateRowRecursive, updateRowMapFn, relabel, relabelRow, setFields, ihr hrest, hi]

theorem ids_updateRowRecursive (r : Row) :
    ∀ rows : List Row, ids (updateRowRecursive rows r.id r) = ids rows := by
  intro rows
  induction rows using forest_induction with
  | hnil => simp [updateRowRecursive]
  | hnone i f l d rest ih =>
    by_cases hi : i = r.id
    · simp [updateRowRecursive, updateRowMapFn, ih, hi]
    · simp [updateRowRecursive, updateRowMapFn, ih, hi]
  | hsome i f l d kids rest ihk ihr =>
    by_cases hi : i = r.id
    · simp [updateRowRecursive, updateRowMapFn, ihr, hi]
    · by_cases hlen : kids.length > 0
      · simp [updateRowRecursive, updateRowMapFn, ihr, ihk, hi, hlen]
      · simp [updateRowRecursive, updateRowMapFn, ihr, hi, hlen]

theorem length_updateRowRecursive (id : Option String) (r : Row) (rows : List Row) :
    (updateRowRecursive rows id r).length = rows.length := by
  induction rows with
  | nil => simp [updateRowRecursive]
  | cons row rest ih => simp [updateRowRecursive, ih]

/-! ## Deletion -/

@[simp] theorem Row.label_id (row : Row) : row.label.id = row.id := by
  cases row; rfl

@[simp] theorem idsRow_none (i : Option String) (f l d : String) :
    idsRow (Row.mk i f l d none) = [i] := by
  simp [idsRow, preorderRow]

@[simp] theorem idsRow_some (i : Option String) (f l d : String) (kids : List Row) :
    idsRow (Row.mk i f l d (some kids)) = i :: ids kids := by
  simp [idsRow, preorderRow, ids]

@[simp] theorem Row.descendants_none (i : Option String) (f l d : String) :
    (Row.mk i f l d none).descendants = [] := rfl

@[simp] theorem Row.descendants_some (i : Option String) (f l d : String) (kids : List Row) :
    (Row.mk i f l d (some kids)).descendants = preorder kids := rfl

theorem idsRow_subset_ids {n : Row} :
    ∀ rows : List Row, n ∈ preorder rows → ∀ j ∈ idsRow n, j ∈ ids rows := by
  intro rows
  induction rows using forest_induction with
  | hnil => intro h; simp at h
  | hnone i f l d rest ih =>
    intro h j hj
    simp only [preorder_cons_none, List.mem_cons] at h
    rcases h with rfl | h
    · simp only [idsRow_none, List.mem_singleton] at hj
      simp [hj]
    · simp [ih h j hj]
  | hsome i f l d kids rest ihk ihr =>
    intro h j hj
    simp only [preorder_cons_some, List.mem_cons, List.mem_append] at h
    rcases h with rfl | h | h
    · simp only [idsRow_some, List.mem_cons] at hj
      rcases hj with rfl | hj
      · simp
      · simp [hj]
    · simp [ihk h j hj]
    · simp [ihr h j hj]

theorem labels_filter_keep (S : List (Option String)) (rows : List Row)
    (h : ∀ j ∈ ids rows, j ∉ S) :
    ((preorder rows).map Row.label).filter (fun l => decide (l.id ∉ S))
      = (preorder rows).map Row.label := by
  rw [List.filter_eq_self]
  intro l hl
  simp only [List.mem_map] at hl
  obtain ⟨row, hrow, rfl⟩ := hl
  have : row.id ∈ ids rows := List.mem_map.2 ⟨row, hrow, rfl⟩
  simpa using h _ this

theorem labels_filter_drop (S : List (Option String)) (rows : List Row)
    (h : ∀ j ∈ ids rows, j ∈ S) :
    ((preorder rows).map Row.label).filter (fun l => decide (l.id ∉ S)) = [] := by
  rw [List.filter_eq_nil_iff]
  intro l hl
  simp only [List.mem_map] at hl
  obtain ⟨row, hrow, rfl⟩ := hl
  have : row.id ∈ ids rows := List.mem_map.2 ⟨row, hrow, rfl⟩
  simpa using h _ this

theorem ids_ne_nil_length {id : Option String} {rows : List Row} (h : id ∈ ids rows) :
    rows.length > 0 := by
  cases rows with
  | nil => simp at h
  | cons _ _ => simp

theorem deleteRowRecursive_present (id : Option String) :
    ∀ rows : List Row, wellFormed rows → (ids rows).Nodup → id ∈ ids rows →
      ∃ rows' n, deleteRowRecursive rows id = some rows' ∧ findRowById rows id = some n ∧
        (preorder rows').length + (1 + n.descendants.length) = (preorder rows).length ∧
        (preorder rows').map Row.label
          = ((preorder rows).map Row.label).filter (fun l => decide (l.id ∉ idsRow n)) := by
  intro rows
  induction rows using forest_induction with
  | hnil => intro _ _ h; simp at h
  | hnone i f l d rest ih => intro hwf; simp at hwf
  | hsome i f l d kids rest ihk ihr =>
    intro hwf hnd hmem
    simp only [wellFormed_cons_some] at hwf
    simp only [ids_cons_some, List.nodup_cons, List.mem_append, not_or, List.nodup_append] at hnd
    obtain ⟨⟨hik, hir⟩, hk, hrest, hdisj⟩ := hnd
    simp only [ids_cons_some, List.mem_cons, List.mem_append] at hmem
    by_cases hi : i = id
    · subst hi
      refine ⟨rest, Row.mk i f l d (some kids), ?_, ?_, ?_, ?_⟩
      · simp [deleteRowRecursive, deleteRowRecursive_absent i rest hwf.2 hir]
      · simp
      · simp; omega
      · simp only [preorder_cons_some, List.map_cons, List.map_append, List.filter_cons,
          List.filter_append, idsRow_some, Row.label_mk]
        rw [labels_filter_drop _ kids (fun j hj => List.mem_cons_of_mem _ hj),
          labels_filter_keep _ rest]
        · simp
        · intro j hj hj'
          rcases List.mem_cons.1 hj' with rfl | hj'
          · exact hir hj
          · exact hdisj hj' hj
    · have hid : id ∈ ids kids ∨ id ∈ ids rest := by
        rcases hmem with h | h
        · exact absurd h.symm hi
        · exact h
      by_cases hin : id ∈ ids kids
      · have hnr : id ∉ ids rest := fun h => hdisj hin h
        obtain ⟨kids', n, hdel, hfind, hlen, hlab⟩ := ihk hwf.1 hk hin
        have hsub := idsRow_subset_ids kids (findRowById_mem hfind)
        refine ⟨Row.mk i f l d (some kids') :: rest, n, ?_, ?_, ?_, ?_⟩
        · simp [deleteRowRecursive, deleteRowMapFn, hdel, hi,
            deleteRowRecursive_absent id rest hwf.2 hnr]
        · simp [hi, hfind, ids_ne_nil_length hin]
        · simp; omega
        · simp only [preorder_cons_some, List.map_cons, List.map_append, List.filter_cons,
            List.filter_append, Row.label_mk]
          rw [← hlab, labels_filter_keep _ rest]
          · have : i ∉ idsRow n := fun h => hik (hsub i h)
            simp [this]
          · intro j hj hj'
            exact hdisj (hsub j hj') hj
      · have hinr : id ∈ ids rest := hid.resolve_left hin
        obtain ⟨rest', n, hdel, hfind, hlen, hlab⟩ := ihr hwf.2 hrest hinr
        have hsub := idsRow_subset_ids rest (findRowById_mem hfind)
        have hfk : findRowById kids id = none := (findRowById_eq_none_iff id kids).2 hin
        refine ⟨Row.mk i f l d (some kids) :: rest', n, ?_, ?_, ?_, ?_⟩
        · simp [deleteRowRecursive, deleteRowMapFn, hdel, hi,
            deleteRowRecursive_absent id kids hwf.1 hin]
        · by_cases hlen0 : kids.length > 0
          · simp [hi, hfind, hfk, hlen0]
          · simp [hi, hfind, hlen0]
        · simp; omega
        · simp only [preorder_cons_some, List.map_cons, List.map_append, List.filter_cons,
            List.filter_append, Row.label_mk]
          rw [← hlab, labels_filter_keep _ kids]
          · have : i ∉ idsRow n := fun h => hir (hsub i h)
            simp [this]
          · intro j hj hj'
            exact hdisj hj (hsub j hj')

/-! ## Positions -/

@[simp] theorem nodeAt_nil (path : List Nat) : nodeAt [] path = none := by
  match path with
  | [] => simp [nodeAt]
  | [i] => simp [nodeAt]
  | i :: j :: rest => simp [nodeAt]

@[simp] theorem nodeAt_cons_zero (r : Row) (rest : List Row) :
    nodeAt (r :: rest) [0] = some r := by
  simp [nodeAt]

@[simp] theorem nodeAt_cons_succ (r : Row) (rest : List Row) (i : Nat) (path : List Nat) :
    nodeAt (r :: rest) ((i + 1) :: path) = nodeAt rest (i :: path) := by
  cases path with
  | nil => simp [nodeAt]
  | cons j path => simp [nodeAt]

@[simp] theorem nodeAt_cons_zero_some (i : Option String) (f l d : String) (kids rest : List Row)
    (j : Nat) (path : List Nat) :
    nodeAt (Row.mk i f l d (some kids) :: rest) (0 :: j :: path) = nodeAt kids (j :: path) := by
  simp [nodeAt]

@[simp] theorem nodeAt_cons_zero_none (i : Option String) (f l d : String) (rest : List Row)
    (j : Nat) (path : List Nat) :
    nodeAt (Row.mk i f l d none :: rest) (0 :: j :: path) = none := by
  simp [nodeAt]

theorem nodeAt_mem {row : Row} :
    ∀ (rows : List Row) (path : List Nat), nodeAt rows path = some row → row ∈ preorder rows := by
  intro rows
  induction rows using forest_induction with
  | hnil => intro path h; simp at h
  | hnone i f l d rest ih =>
    intro path h
    match path, h with
    | [], h => simp [nodeAt] at h
    | [0], h => simp at h; simp [← h]
    | 0 :: j :: path, h => simp at h
    | (k + 1) :: path, h =>
      simp only [nodeAt_cons_succ] at h
      simp [ih _ h]
  | hsome i f l d kids rest ihk ihr =>
    intro path h
    match path, h with
    | [], h => simp [nodeAt] at h
    | [0], h => simp at h; simp [← h]
    | 0 :: j :: path, h =>
      simp only [nodeAt_cons_zero_some] at h
      simp [ihk _ h]
    | (k + 1) :: path, h =>
      simp only [nodeAt_cons_succ] at h
      simp [ihr _ h]

theorem exists_nodeAt_of_mem {row : Row} :
    ∀ rows : List Row, row ∈ preorder rows → ∃ path, nodeAt rows path = some row := by
  intro rows
  induction rows using forest_induction with
  | hnil => intro h; simp at h
  | hnone i f l d rest ih =>
    intro h
    simp only [preorder_cons_none, List.mem_cons] at h
    rcases h with rfl | h
    · exact ⟨[0], by simp⟩
    · obtain ⟨path, hp⟩ := ih h
      match path, hp with
      | [], hp => simp [nodeAt] at hp
      | k :: path, hp => exact ⟨(k + 1) :: path, by simpa using hp⟩
  | hsome i f l d kids rest ihk ihr =>
    intro h
    simp only [preorder_cons_some, List.mem_cons, List.mem_append] at h
    rcases h with rfl | h | h
    · exact ⟨[0], by simp⟩
    · obtain ⟨path, hp⟩ := ihk h
      match path, hp with
      | [], hp => simp [nodeAt] at hp
      | k :: path, hp => exact ⟨0 :: k :: path, by simpa using hp⟩
    · obtain ⟨path, hp⟩ := ihr h
      match path, hp with
      | [], hp => simp [nodeAt] at hp
      | k :: path, hp => exact ⟨(k + 1) :: path, by simpa using hp⟩

theorem nodeAt_append_left {row : Row} (ys : List Row) :
    ∀ (xs : List Row) (path : List Nat),
      nodeAt xs path = some row → nodeAt (xs ++ ys) path = some row := by
  intro xs
  induction xs with
  | nil => intro path h; simp at h
  | cons x xs ih =>
    intro path h
    match path, h with
    | [], h => simp [nodeAt] at h
    | [0], h => simpa using h
    | 0 :: j :: path, h =>
      cases x with
      | mk i f l d nd =>
        cases nd with
        | none => simp at h
        | some kids => simpa using h
    | (k + 1) :: path, h =>
      simp only [nodeAt_cons_succ, List.cons_append] at h ⊢
      exact ih _ h

theorem id_mem_ids_of_nodeAt {row : Row} {rows : List Row} {path : List Nat}
    (h : nodeAt rows path = some row) : row.id ∈ ids rows :=
  List.mem_map.2 ⟨row, nodeAt_mem rows path h, rfl⟩

/-! ## Insertion of a child -/

theorem addNestedRowRecursive_present (p : Option String) (n : Row) :
    ∀ rows : List Row, wellFormed rows → (ids rows).Nodup →
      ∃ rows', addNestedRowRecursive rows p n = some rows' ∧
        rows'.map Row.label = rows.map Row.label ∧
        (preorder rows').length
          = (preorder rows).length + (if p ∈ ids rows then (preorder [n]).length else 0) ∧
        ∀ path row, nodeAt rows path = some row →
          ∃ row', nodeAt rows' path = some row' ∧ row'.label = row.label ∧
            (row.id = p →
              ∃ kids, row.nestedData = some kids ∧ row'.nestedData = some (kids ++ [n])) ∧
            (row.id ≠ p → row'.childLabels = row.childLabels) := by
  intro rows
  induction rows using forest_induction with
  | hnil =>
    intro _ _
    exact ⟨[], by simp [addNestedRowRecursive], rfl, by simp, by intro path row h; simp at h⟩
  | hnone i f l d rest ih => intro hwf; simp at hwf
  | hsome i f l d kids rest ihk ihr =>
    intro hwf hnd
    simp only [wellFormed_cons_some] at hwf
    simp only [ids_cons_some, List.nodup_cons, List.mem_append, not_or, List.nodup_append] at hnd
    obtain ⟨⟨hik, hir⟩, hk, hrest, hdisj⟩ := hnd
    by_cases hi : i = p
    · subst hi
      refine ⟨Row.mk i f l d (some (kids ++ [n])) :: rest, ?_, ?_, ?_, ?_⟩
      · simp [addNestedRowRecursive, addNestedRowMapFn,
          addNestedRowRecursive_absent i n rest hir]
      · simp
      · simp [preorder_append]; omega
      · intro path row h
        match path, h with
        | [], h => simp [nodeAt] at h
        | [0], h =>
          simp only [nodeAt_cons_zero, Option.some.injEq] at h
          subst h
          exact ⟨Row.mk i f l d (some (kids ++ [n])), by simp, by simp,
            fun _ => ⟨kids, by simp, by simp⟩, fun hne => by simp at hne⟩
        | 0 :: j :: path, h =>
          simp only [nodeAt_cons_zero_some] at h
          have hne : row.id ≠ i := fun he => hik (he ▸ id_mem_ids_of_nodeAt h)
          exact ⟨row, by simpa using nodeAt_append_left [n] kids _ h, rfl,
            fun he => absurd he hne, fun _ => rfl⟩
        | (k + 1) :: path, h =>
          simp only [nodeAt_cons_succ] at h
          have hne : row.id ≠ i := fun he => hir (he ▸ id_mem_ids_of_nodeAt h)
          exact ⟨row, by simpa using h, rfl, fun he => absurd he hne, fun _ => rfl⟩
    · obtain ⟨rest', hr1, hr2, hr3, hr4⟩ := ihr hwf.2 hrest
      have hcount : ∀ a b : Nat,
          a + (if p ∈ ids kids then (preorder [n]).length else 0)
              + (b + (if p ∈ ids rest then (preorder [n]).length else 0))
            = a + b + (if p ∈ ids (Row.mk i f l d (some kids) :: rest)
                then (preorder [n]).length else 0) := by
        intro a b
        have hmem : p ∈ ids (Row.mk i f l d (some kids) :: rest)
            ↔ p ∈ ids kids ∨ p ∈ ids rest := by
          simp [Ne.symm hi]
        by_cases h1 : p ∈ ids kids
        · have h2 : p ∉ ids rest := fun h => hdisj h1 h
          rw [if_pos h1, if_neg h2, if_pos (hmem.2 (Or.inl h1))]; omega
        · by_cases h2 : p ∈ ids rest
          · rw [if_neg h1, if_pos h2, if_pos (hmem.2 (Or.inr h2))]; omega
          · rw [if_neg h1, if_neg h2, if_neg (fun h => (hmem.1 h).elim h1 h2)]; omega
      by_cases hlen : kids.length > 0
      · obtain ⟨kids', hk1, hk2, hk3, hk4⟩ := ihk hwf.1 hk
        refine ⟨Row.mk i f l d (some kids') :: rest', ?_, ?_, ?_, ?_⟩
        · simp [addNestedRowRecursive, addNestedRowMapFn, hi, hlen, hk1, hr1]
        · simp [hr2]
        · simp only [preorder_cons_some, List.length_cons, List.length_append, hk3, hr3]
          have := hcount (preorder kids).length (preorder rest).length
          omega
        · intro path row h
          match path, h with
          | [], h => simp [nodeAt] at h
          | [0], h =>
            simp only [nodeAt_cons_zero, Option.some.injEq] at h
            subst h
            exact ⟨Row.mk i f l d (some kids'), by simp, by simp, fun he => absurd he hi,
              fun _ => by simp [Row.childLabels, hk2]⟩
          | 0 :: j :: path, h =>
            simp only [nodeAt_cons_zero_some] at h ⊢
            exact hk4 _ _ h
          | (k + 1) :: path, h =>
            simp only [nodeAt_cons_succ] at h ⊢
            exact hr4 _ _ h
      · have hnil : kids = [] := by simpa using hlen
        subst hnil
        refine ⟨Row.mk i f l d (some []) :: rest', ?_, ?_, ?_, ?_⟩
        · simp [addNestedRowRecursive, addNestedRowMapFn, hi, hr1]
        · simp [hr2]
        · simp only [preorder_cons_some, List.length_cons, List.length_append, hr3]
          have := hcount 0 (preorder rest).length
          simp only [ids_nil, List.not_mem_nil, if_false] at this
          simp only [preorder_nil, List.length_nil]
          omega
        · intro path row h
          match path, h with
          | [], h => simp [nodeAt] at h
          | [0], h =>
            simp only [nodeAt_cons_zero, Option.some.injEq] at h
            subst h
            exact ⟨Row.mk i f l d (some []), by simp, by simp, fun he => absurd he hi,
              fun _ => rfl⟩
          | 0 :: j :: path, h => simp at h
          | (k + 1) :: path, h =>
            simp only [nodeAt_cons_succ] at h ⊢
            exact hr4 _ _ h

/-! ## The search after a mutation -/

theorem deleteRowRecursive_total (id : Option String) :
    ∀ rows : List Row, wellFormed rows →
      ∃ rows', deleteRowRecursive rows id = some rows' ∧ wellFormed rows' ∧
        (ids rows').Sublist (ids rows) ∧ id ∉ ids rows' := by
  intro rows
  induction rows using forest_induction with
  | hnil => intro _; exact ⟨[], by simp [deleteRowRecursive], by simp, by simp, by simp⟩
  | hnone i f l d rest ih => intro hwf; simp at hwf
  | hsome i f l d kids rest ihk ihr =>
    intro hwf
    simp only [wellFormed_cons_some] at hwf
    obtain ⟨kids', hk1, hk2, hk3, hk4⟩ := ihk hwf.1
    obtain ⟨rest', hr1, hr2, hr3, hr4⟩ := ihr hwf.2
    by_cases hi : i = id
    · refine ⟨rest', by simp [deleteRowRecursive, hi, hr1], hr2, ?_, hr4⟩
      simp only [ids_cons_some]
      exact (hr3.trans (List.sublist_append_right _ _)).trans (List.sublist_cons_self _ _)
    · refine ⟨Row.mk i f l d (some kids') :: rest', ?_, ?_, ?_, ?_⟩
      · simp [deleteRowRecursive, deleteRowMapFn, hi, hk1, hr1]
      · simp [hk2, hr2]
      · simp only [ids_cons_some]
        exact (hk3.append hr3).cons₂ _
      · simp [hk4, hr4, Ne.symm hi]

theorem findRowById_updateRowRecursive (id : Option String) (r : Row) (hr : r.id = id) :
    ∀ rows : List Row, id ∈ ids rows →
      ∃ n, findRowById rows id = some n ∧
        findRowById (updateRowRecursive rows id r) id
          = some (Row.mk id r.firstName r.lastName r.description n.nestedData) := by
  intro rows
  induction rows using forest_induction with
  | hnil => intro h; simp at h
  | hnone i f l d rest ih =>
    intro h
    simp only [ids_cons_none, List.mem_cons] at h
    by_cases hi : i = id
    · exact ⟨Row.mk i f l d none, by simp [hi],
        by simp [updateRowRecursive, updateRowMapFn, hi, hr]⟩
    · obtain ⟨n, h1, h2⟩ := ih (h.resolve_left (fun e => hi e.symm))
      exact ⟨n, by simp [hi, h1],
        by simp [updateRowRecursive, updateRowMapFn, hi, h2]⟩
  | hsome i f l d kids rest ihk ihr =>
    intro h
    simp only [ids_cons_some, List.mem_cons, List.mem_append] at h
    by_cases hi : i = id
    · exact ⟨Row.mk i f l d (some kids), by simp [hi],
        by simp [updateRowRecursive, updateRowMapFn, hi, hr]⟩
    · by_cases hin : id ∈ ids kids
      · obtain ⟨n, h1, h2⟩ := ihk hin
        have hlen := ids_ne_nil_length hin
        exact ⟨n, by simp [hi, h1, hlen],
          by simp [updateRowRecursive, updateRowMapFn, hi, h2, hlen,
            length_updateRowRecursive]⟩
      · have hrest : id ∈ ids rest := by
          rcases h with h | h | h
          · exact absurd h.symm hi
          · exact absurd h hin
          · exact h
        obtain ⟨n, h1, h2⟩ := ihr hrest
        have hfk : findRowById kids id = none := (findRowById_eq_none_iff id kids).2 hin
        have huk := updateRowRecursive_absent id r kids hin
        refine ⟨n, ?_, ?_⟩
        · by_cases hlen : kids.length > 0
          · simp [hi, h1, hfk, hlen]
          · simp [hi, h1, hlen]
        · by_cases hlen : kids.length > 0
          · simp [updateRowRecursive, updateRowMapFn, hi, h2, hlen, huk, hfk]
          · simp [updateRowRecursive, updateRowMapFn, hi, h2, hlen]

theorem findRowById_append_of_absent (id : Option String) (xs ys : List Row)
    (h : id ∉ ids xs) : findRowById (xs ++ ys) id = findRowById ys id := by
  have hx : (preorder xs).find? (fun row => decide (row.id = id)) = none := by
    rw [← findRowById_eq_find]
    exact (findRowById_eq_none_iff id xs).2 h
  rw [findRowById_eq_find, findRowById_eq_find, preorder_append, List.find?_append, hx]
  simp

theorem findRowById_singleton_self (n : Row) : findRowById [n] n.id = some n := by
  cases n with
  | mk a b c e nd => cases nd <;> simp

theorem findRowById_addNestedRowRecursive (p : Option String) (n : Row) :
    ∀ rows : List Row, wellFormed rows → (ids rows).Nodup → p ∈ ids rows → n.id ∉ ids rows →
      ∃ rows', addNestedRowRecursive rows p n = some rows' ∧
        findRowById rows' n.id = some n := by
  intro rows
  induction rows using forest_induction with
  | hnil => intro _ _ h; simp at h
  | hnone i f l d rest ih => intro hwf; simp at hwf
  | hsome i f l d kids rest ihk ihr =>
    intro hwf hnd hmem hfresh
    simp only [wellFormed_cons_some] at hwf
    simp only [ids_cons_some, List.nodup_cons, List.mem_append, not_or, List.nodup_append] at hnd
    obtain ⟨⟨hik, hir⟩, hk, hrest, hdisj⟩ := hnd
    simp only [ids_cons_some, List.mem_cons, List.mem_append, not_or] at hmem hfresh
    obtain ⟨hni, hnk, hnr⟩ := hfresh
    have hselfn : findRowById [n] n.id = some n := findRowById_singleton_self n
    by_cases hi : i = p
    · subst hi
      refine ⟨Row.mk i f l d (some (kids ++ [n])) :: rest, ?_, ?_⟩
      · simp [addNestedRowRecursive, addNestedRowMapFn,
          addNestedRowRecursive_absent i n rest hir]
      · simp [Ne.symm hni, findRowById_append_of_absent n.id kids [n] hnk, hselfn]
    · by_cases hin : p ∈ ids kids
      · have hpr : p ∉ ids rest := fun h => hdisj hin h
        obtain ⟨kids', h1, h2⟩ := ihk hwf.1 hk hin hnk
        have hlen := ids_ne_nil_length hin
        have hlen' : kids'.length > 0 := by
          cases kids' with
          | nil => simp at h2
          | cons _ _ => simp
        refine ⟨Row.mk i f l d (some kids') :: rest, ?_, ?_⟩
        · simp [addNestedRowRecursive, addNestedRowMapFn, hi, hlen, h1,
            addNestedRowRecursive_absent p n rest hpr]
        · simp [Ne.symm hni, hlen', h2]
      · have hprest : p ∈ ids rest := by
          rcases hmem with h | h | h
          · exact absurd h.symm hi
          · exact absurd h hin
          · exact h
        obtain ⟨rest', h1, h2⟩ := ihr hwf.2 hrest hprest hnr
        have hfk : findRowById kids n.id = none := (findRowById_eq_none_iff n.id kids).2 hnk
        refine ⟨Row.mk i f l d (some kids) :: rest', ?_, ?_⟩
        · by_cases hlen : kids.length > 0
          · simp [addNestedRowRecursive, addNestedRowMapFn, hi, hlen, h1,
              addNestedRowRecursive_absent p n kids hin]
          · simp [addNestedRowRecursive, addNestedRowMapFn, hi, hlen, h1]
        · by_cases hlen : kids.length > 0
          · simp [Ne.symm hni, hlen, hfk, h2]
          · simp [Ne.symm hni, hlen, h2]

/-! ## Preservation of well-formedness and of the ids -/

theorem wellFormed_append (xs ys : List Row) :
    wellFormed (xs ++ ys) ↔ wellFormed xs ∧ wellFormed ys := by
  simp only [wellFormed, preorder_append, List.mem_append]
  constructor
  · intro h
    exact ⟨fun r hr => h r (Or.inl hr), fun r hr => h r (Or.inr hr)⟩
  · rintro ⟨h1, h2⟩ r (hr | hr)
    · exact h1 r hr
    · exact h2 r hr

theorem wellFormed_updateRowRecursive (id : Option String) (r : Row) :
    ∀ rows : List Row, wellFormed rows → wellFormed (updateRowRecursive rows id r) := by
  intro rows
  induction rows using forest_induction with
  | hnil => intro _; simp [updateRowRecursive]
  | hnone i f l d rest ih => intro hwf; simp at hwf
  | hsome i f l d kids rest ihk ihr =>
    intro hwf
    simp only [wellFormed_cons_some] at hwf
    by_cases hi : i = id
    · simp [updateRowRecursive, updateRowMapFn, hi, hwf.1, ihr hwf.2]
    · by_cases hlen : kids.length > 0
      · simp [updateRowRecursive, updateRowMapFn, hi, hlen, ihk hwf.1, ihr hwf.2]
      · simp [updateRowRecursive, updateRowMapFn, hi, hlen, hwf.1, ihr hwf.2]

theorem addNestedRowRecursive_total (p : Option String) (n : Row) :
    ∀ rows : List Row, wellFormed rows →
      ∃ rows', addNestedRowRecursive rows p n = some rows' ∧
        (wellFormed [n] → wellFormed rows') ∧
        (∀ j ∈ ids rows', j ∈ ids rows ∨ j ∈ ids [n]) := by
  intro rows
  induction rows using forest_induction with
  | hnil => intro _; exact ⟨[], by simp [addNestedRowRecursive], by simp, by simp⟩
  | hnone i f l d rest ih => intro hwf; simp at hwf
  | hsome i f l d kids rest ihk ihr =>
    intro hwf
    simp only [wellFormed_cons_some] at hwf
    obtain ⟨kids', hk1, hk2, hk3⟩ := ihk hwf.1
    obtain ⟨rest', hr1, hr2, hr3⟩ := ihr hwf.2
    by_cases hi : i = p
    · refine ⟨Row.mk i f l d (some (kids ++ [n])) :: rest', ?_, ?_, ?_⟩
      · simp [addNestedRowRecursive, addNestedRowMapFn, hi, hr1]
      · intro hn
        simp [wellFormed_append, hwf.1, hn, hr2 hn]
      · intro j hj
        simp only [ids_cons_some, ids_append, List.mem_cons, List.mem_append] at hj ⊢
        rcases hj with hj | (hj | hj) | hj
        · exact Or.inl (Or.inl hj)
        · exact Or.inl (Or.inr (Or.inl hj))
        · exact Or.inr hj
        · rcases hr3 j hj with h | h
          · exact Or.inl (Or.inr (Or.inr h))
          · exact Or.inr h
    · by_cases hlen : kids.length > 0
      · refine ⟨Row.mk i f l d (some kids') :: rest', ?_, ?_, ?_⟩
        · simp [addNestedRowRecursive, addNestedRowMapFn, hi, hlen, hk1, hr1]
        · intro hn
          simp [hk2 hn, hr2 hn]
        · intro j hj
          simp only [ids_cons_some, List.mem_cons, List.mem_append] at hj ⊢
          rcases hj with hj | hj | hj
          · exact Or.inl (Or.inl hj)
          · rcases hk3 j hj with h | h
            · exact Or.inl (Or.inr (Or.inl h))
            · exact Or.inr h
          · rcases hr3 j hj with h | h
            · exact Or.inl (Or.inr (Or.inr h))
            · exact Or.inr h
      · refine ⟨Row.mk i f l d (some kids) :: rest', ?_, ?_, ?_⟩
        · simp [addNestedRowRecursive, addNestedRowMapFn, hi, hlen, hr1]
        · intro hn
          simp [hwf.1, hr2 hn]
        · intro j hj
          simp only [ids_cons_some, List.mem_cons, List.mem_append] at hj ⊢
          rcases hj with hj | hj | hj
          · exact Or.inl (Or.inl hj)
          · exact Or.inl (Or.inr (Or.inl hj))
          · rcases hr3 j hj with h | h
            · exact Or.inl (Or.inr (Or.inr h))
            · exact Or.inr h

theorem addNestedRowRecursive_ids (p : Option String) (n : Row) :
    ∀ rows : List Row, wellFormed rows → (ids rows).Nodup →
      ∃ rows', addNestedRowRecursive rows p n = some rows' ∧
        (ids rows').Perm (ids rows ++ (if p ∈ ids rows then ids [n] else [])) := by
  intro rows
  induction rows using forest_induction with
  | hnil => intro _ _; exact ⟨[], by simp [addNestedRowRecursive], by simp⟩
  | hnone i f l d rest ih => intro hwf; simp at hwf
  | hsome i f l d kids rest ihk ihr =>
    intro hwf hnd
    simp only [wellFormed_cons_some] at hwf
    simp only [ids_cons_some, List.nodup_cons, List.mem_append, not_or, List.nodup_append] at hnd
    obtain ⟨⟨hik, hir⟩, hk, hrest, hdisj⟩ := hnd
    by_cases hi : i = p
    · subst hi
      refine ⟨Row.mk i f l d (some (kids ++ [n])) :: rest, ?_, ?_⟩
      · simp [addNestedRowRecursive, addNestedRowMapFn,
          addNestedRowRecursive_absent i n rest hir]
      · have hmem : i ∈ ids (Row.mk i f l d (some kids) :: rest) := by simp
        rw [if_pos hmem]
        simp only [ids_cons_some, ids_append, List.cons_append, List.append_assoc]
        exact List.Perm.cons _ (List.Perm.append_left _ List.perm_append_comm)
    · have hmem : p ∈ ids (Row.mk i f l d (some kids) :: rest)
          ↔ p ∈ ids kids ∨ p ∈ ids rest := by
        simp [Ne.symm hi]
      by_cases h1 : p ∈ ids kids
      · have h2 : p ∉ ids rest := fun h => hdisj h1 h
        obtain ⟨kids', hk1, hk2⟩ := ihk hwf.1 hk
        rw [if_pos h1] at hk2
        refine ⟨Row.mk i f l d (some kids') :: rest, ?_, ?_⟩
        · simp [addNestedRowRecursive, addNestedRowMapFn, hi, ids_ne_nil_length h1, hk1,
            addNestedRowRecursive_absent p n rest h2]
        · rw [if_pos (hmem.2 (Or.inl h1))]
          simp only [ids_cons_some, List.cons_append, List.append_assoc]
          refine List.Perm.cons _ ((hk2.append_right _).trans ?_)
          simp only [List.append_assoc]
          exact List.Perm.append_left _ List.perm_append_comm
      · have hkids : addNestedRowRecursive kids p n = some kids :=
          addNestedRowRecursive_absent p n kids h1
        obtain ⟨rest', hr1, hr2⟩ := ihr hwf.2 hrest
        refine ⟨Row.mk i f l d (some kids) :: rest', ?_, ?_⟩
        · by_cases hlen : kids.length > 0
          · simp [addNestedRowRecursive, addNestedRowMapFn, hi, hlen, hkids, hr1]
          · simp [addNestedRowRecursive, addNestedRowMapFn, hi, hlen, hr1]
        · have hif : (if p ∈ ids (Row.mk i f l d (some kids) :: rest) then ids [n] else [])
              = (if p ∈ ids rest then ids [n] else []) := by
            by_cases h2 : p ∈ ids rest
            · rw [if_pos h2, if_pos (hmem.2 (Or.inr h2))]
            · rw [if_neg h2, if_neg (fun h => (hmem.1 h).elim h1 h2)]
          rw [hif]
          simp only [ids_cons_some, List.cons_append, List.append_assoc]
          exact List.Perm.cons _ (List.Perm.append_left _ hr2)

/-! ## The component as a state machine -/

theorem run_append (xs ys : List UserAction) :
    ∀ s : NestedTable, run s (xs ++ ys) = (run s xs).bind (fun s' => run s' ys) := by
  induction xs with
  | nil => intro s; simp [run]
  | cons a xs ih =>
    intro s
    cases h : dispatch s a with
    | none => simp [run, h]
    | some s' => simp [run, h, ih s']

theorem dispatch_preserves_unique (s s' : NestedTable) (a : UserAction)
    (hwf : wellFormed s.data) (hnd : (ids s.data).Nodup)
    (hfresh : ∀ uuid, generatedId s a = some uuid → some uuid ∉ ids s.data)
    (hstep : dispatch s a = some s') :
    wellFormed s'.data ∧ (ids s'.data).Nodup := by
  cases a with
  | handleInputChange name value =>
    simp only [dispatch, Option.some.injEq] at hstep
    subst hstep
    exact ⟨hwf, hnd⟩
  | addOrUpdateRow uuid =>
    simp only [dispatch, Option.some.injEq] at hstep
    subst hstep
    by_cases he : s.isEditing = true
    · simp only [addOrUpdateRow, he, if_true]
      exact ⟨wellFormed_updateRowRecursive _ _ _ hwf, by rw [ids_updateRowRecursive]; exact hnd⟩
    · have hf := hfresh uuid (by simp [generatedId, he])
      simp only [addOrUpdateRow, he]
      refine ⟨?_, ?_⟩
      · simp [wellFormed_append, hwf]
      · simp only [Bool.false_eq_true, if_false, ids_append, ids_cons_some, ids_nil,
          List.append_nil]
        rw [List.nodup_append]
        refine ⟨hnd, by simp, ?_⟩
        intro j hj hj'
        simp only [List.mem_singleton] at hj'
        exact hf (hj' ▸ hj)
  | editRow id =>
    simp only [dispatch, editRow] at hstep
    cases hfind : findRowById s.data id with
    | none => simp [hfind] at hstep
    | some row =>
      simp only [hfind, Option.some.injEq] at hstep
      subst hstep
      exact ⟨hwf, hnd⟩
  | deleteRow id =>
    obtain ⟨rows', h1, h2, h3, _⟩ := deleteRowRecursive_total id s.data hwf
    simp only [dispatch, deleteRow, h1, Option.some.injEq] at hstep
    subst hstep
    exact ⟨h2, hnd.sublist h3⟩
  | openModal parentId =>
    simp only [dispatch, Option.some.injEq] at hstep
    subst hstep
    exact ⟨hwf, hnd⟩
  | closeModal =>
    simp only [dispatch, Option.some.injEq] at hstep
    subst hstep
    exact ⟨hwf, hnd⟩
  | addNestedRow uuid =>
    have hf := hfresh uuid (by simp [generatedId])
    obtain ⟨rows', h1, h2, _⟩ := addNestedRowRecursive_total s.currentParentId
      (Row.mk (some uuid) s.newRow.firstName s.newRow.lastName s.newRow.description (some []))
      s.data hwf
    obtain ⟨rows'', h3, h4⟩ := addNestedRowRecursive_ids s.currentParentId
      (Row.mk (some uuid) s.newRow.firstName s.newRow.lastName s.newRow.description (some []))
      s.data hwf hnd
    have heq : rows'' = rows' := by
      rw [h1] at h3
      exact (Option.some.inj h3).symm
    subst heq
    simp only [dispatch, addNestedRow, h1, Option.some.injEq] at hstep
    subst hstep
    refine ⟨h2 (by simp), ?_⟩
    simp only [closeModal]
    rw [h4.nodup_iff]
    split
    · simp only [ids_cons_some, ids_nil, List.append_nil]
      rw [List.nodup_append]
      refine ⟨hnd, by simp, ?_⟩
      intro j hj hj'
      simp only [List.mem_singleton] at hj'
      exact hf (hj' ▸ hj)
    · simpa using hnd

theorem run_preserves_unique :
    ∀ (actions : List UserAction) (s s' : NestedTable),
      wellFormed s.data → (ids s.data).Nodup → run s actions = some s' →
      freshIds s actions = true → wellFormed s'.data ∧ (ids s'.data).Nodup := by
  intro actions
  induction actions with
  | nil =>
    intro s s' hwf hnd hrun _
    simp only [run, Option.some.injEq] at hrun
    subst hrun
    exact ⟨hwf, hnd⟩
  | cons a rest ih =>
    intro s s' hwf hnd hrun hfresh
    cases hstep : dispatch s a with
    | none => simp [run, hstep] at hrun
    | some t =>
      simp only [run, hstep] at hrun
      simp only [freshIds, hstep, Bool.and_eq_true] at hfresh
      have hgen : ∀ uuid, generatedId s a = some uuid → some uuid ∉ ids s.data := by
        intro uuid hu
        have := hfresh.1
        simp only [hu, decide_eq_true_eq] at this
        exact this
      obtain ⟨hwf', hnd'⟩ := dispatch_preserves_unique s t a hwf hnd hgen hstep
      exact ih t s' hwf' hnd' hrun hfresh.2

/-! ## The draft and the editing flag -/

@[simp] theorem Row.setInput_id (row : Row) (name : InputName) (value : String) :
    (row.setInput name value).id = row.id := by
  cases row; cases name <;> rfl

@[simp] theorem emptyRow_id : emptyRow.id = none := rfl

theorem dispatch_preserves_mode (s s' : NestedTable) (a : UserAction)
    (hinv : s.newRow.id ≠ none → s.isEditing = true) (hstep : dispatch s a = some s') :
    s'.newRow.id ≠ none → s'.isEditing = true := by
  cases a with
  | handleInputChange name value =>
    simp only [dispatch, Option.some.injEq] at hstep
    subst hstep
    simpa [handleInputChange] using hinv
  | addOrUpdateRow uuid =>
    simp only [dispatch, Option.some.injEq] at hstep
    subst hstep
    by_cases he : s.isEditing = true <;> simp [addOrUpdateRow, he]
  | editRow id =>
    simp only [dispatch, editRow] at hstep
    cases hfind : findRowById s.data id with
    | none => simp [hfind] at hstep
    | some row =>
      simp only [hfind, Option.some.injEq] at hstep
      subst hstep
      simp
  | deleteRow id =>
    simp only [dispatch, deleteRow] at hstep
    cases hdel : deleteRowRecursive s.data id with
    | none => simp [hdel] at hstep
    | some rows' =>
      simp only [hdel, Option.some.injEq] at hstep
      subst hstep
      exact hinv
  | openModal parentId =>
    simp only [dispatch, Option.some.injEq] at hstep
    subst hstep
    simp [openModal]
  | closeModal =>
    simp only [dispatch, Option.some.injEq] at hstep
    subst hstep
    simp [closeModal]
  | addNestedRow uuid =>
    simp only [dispatch, addNestedRow] at hstep
    split at hstep
    · simp only [Option.some.injEq] at hstep
      subst hstep
      simp [closeModal]
    · simp at hstep

theorem run_preserves_mode :
    ∀ (actions : List UserAction) (s s' : NestedTable),
      (s.newRow.id ≠ none → s.isEditing = true) → run s actions = some s' →
      s'.newRow.id ≠ none → s'.isEditing = true := by
  intro actions
  induction actions with
  | nil =>
    intro s s' hinv hrun
    simp only [run, Option.some.injEq] at hrun
    subst hrun
    exact hinv
  | cons a rest ih =>
    intro s s' hinv hrun
    cases hstep : dispatch s a with
    | none => simp [run, hstep] at hrun
    | some t =>
      simp only [run, hstep] at hrun
      exact ih t s' (dispatch_preserves_mode s t a hinv hstep) hrun

/-! ## Root insertions -/

theorem run_insertRootActions (s : NestedTable) (c : RootCall) (he : s.isEditing = false) :
    ∃ s', run s (insertRootActions c) = some s' ∧ s'.isEditing = false ∧
      s'.data = s.data ++ [Row.mk (some c.uuid) c.firstName c.lastName c.description (some [])] := by
  cases hrow : s.newRow with
  | mk i f l d nd =>
    refine ⟨_, rfl, ?_, ?_⟩
    · simp [handleInputChange, addOrUpdateRow, he]
    · simp [handleInputChange, addOrUpdateRow, he, hrow, Row.setInput]

theorem run_insertRootsActions :
    ∀ (calls : List RootCall) (s : NestedTable), s.isEditing = false →
      ∃ s', run s (insertRootsActions calls) = some s' ∧ s'.isEditing = false ∧
        s'.data = s.data ++ calls.map
          (fun c => Row.mk (some c.uuid) c.firstName c.lastName c.description (some [])) := by
  intro calls
  induction calls with
  | nil => intro s he; exact ⟨s, by simp [insertRootsActions, run], he, by simp⟩
  | cons c rest ih =>
    intro s he
    obtain ⟨t, h1, h2, h3⟩ := run_insertRootActions s c he
    obtain ⟨s', h4, h5, h6⟩ := ih t h2
    refine ⟨s', ?_, h5, ?_⟩
    · simp only [insertRootsActions, run_append, h1, Option.bind_some]
      exact h4
    · rw [h6, h3]
      simp

/-! ## The editing flag after the modal -/

theorem typeInputs_frame :
    ∀ (typed : List (InputName × String)) (s : NestedTable),
      (typeInputs s typed).isEditing = s.isEditing ∧ (typeInputs s typed).data = s.data ∧
        (typeInputs s typed).newRow.id = s.newRow.id := by
  intro typed
  induction typed with
  | nil => intro s; simp [typeInputs]
  | cons nv rest ih =>
    intro s
    obtain ⟨name, value⟩ := nv
    obtain ⟨h1, h2, h3⟩ := ih (handleInputChange s name value)
    simp only [typeInputs]
    exact ⟨h1, h2, by simpa [handleInputChange] using h3⟩

theorem addOrUpdateRow_stale_editing (s : NestedTable) (uuid : String)
    (he : s.isEditing = true) (hid : s.newRow.id = none) (hids : idsAssigned s.data) :
    (addOrUpdateRow s uuid).data = s.data ∧ (addOrUpdateRow s uuid).isEditing = false := by
  have h := updateRowRecursive_absent none s.newRow s.data hids
  simp [addOrUpdateRow, he, hid, h]

/-! ## The properties of the specification -/

/-- C1, as amended: in a forest whose ids are globally unique, for an id that occurs in
it and a replacement row `r` whose own id is that id (what `addOrUpdateRow` passes),
`updateRowRecursive` returns the forest relabelled through `setFields`: same nodes, same
nesting and order, every id kept, the field values of the node with that id replaced by
those of `r` and every other label kept; exactly one node has that id; the ids in
pre-order are those of the input; and the node found under that id afterwards has that
id, the field values of `r` and the very children of the node found before. -/
theorem updateRowRecursive_changes_only_fields (rows : List Row) (id : Option String) (r : Row)
    (huniq : (ids rows).Nodup) (hmem : id ∈ ids rows) (hr : r.id = id) :
    updateRowRecursive rows id r = relabel (setFields id r) rows ∧
      (ids rows).countP (fun i => decide (i = id)) = 1 ∧
      ids (updateRowRecursive rows id r) = ids rows ∧
      ∃ n, findRowById rows id = some n ∧
        findRowById (updateRowRecursive rows id r) id
          = some (Row.mk id r.firstName r.lastName r.description n.nestedData) := by
  refine ⟨updateRowRecursive_eq_relabel id r hr rows huniq, countP_eq_one huniq hmem, ?_,
    findRowById_updateRowRecursive id r hr rows hmem⟩
  subst hr
  exact ids_updateRowRecursive r rows

/-- Witness of C1 as amended: a root "a" with a child "c" and a second root "b"; the
row "a" is updated. -/
theorem updateRowRecursive_changes_only_fields_witness :
    (ids [Row.mk (some "a") "A" "" "" (some [Row.mk (some "c") "C" "" "" (some [])]),
        Row.mk (some "b") "B" "" "" (some [])]).Nodup ∧
      updateRowRecursive
          [Row.mk (some "a") "A" "" "" (some [Row.mk (some "c") "C" "" "" (some [])]),
            Row.mk (some "b") "B" "" "" (some [])]
          (some "a") (Row.mk (some "a") "Z" "" "" none)
        = relabel (setFields (some "a") (Row.mk (some "a") "Z" "" "" none))
          [Row.mk (some "a") "A" "" "" (some [Row.mk (some "c") "C" "" "" (some [])]),
            Row.mk (some "b") "B" "" "" (some [])] :=
  ⟨by decide,
    (updateRowRecursive_changes_only_fields
      [Row.mk (some "a") "A" "" "" (some [Row.mk (some "c") "C" "" "" (some [])]),
        Row.mk (some "b") "B" "" "" (some [])]
      (some "a") (Row.mk (some "a") "Z" "" "" none) (by decide) (by decide) rfl).1⟩

/-- C1 as stated fails: with a replacement row whose id is "b", updating the only node,
whose id is "a", gives it the id "b"; the result is not the input forest with only the
field values of that node replaced. -/
theorem updateRowRecursive_id_counterexample :
    (ids [Row.mk (some "a") "A" "" "" (some [])]).Nodup ∧
      some "a" ∈ ids [Row.mk (some "a") "A" "" "" (some [])] ∧
      updateRowRecursive [Row.mk (some "a") "A" "" "" (some [])] (some "a")
          (Row.mk (some "b") "Z" "" "" none)
        = [Row.mk (some "b") "Z" "" "" (some [])] ∧
      relabel (setFields (some "a") (Row.mk (some "b") "Z" "" "" none))
          [Row.mk (some "a") "A" "" "" (some [])]
        = [Row.mk (some "a") "Z" "" "" (some [])] ∧
      ids (updateRowRecursive [Row.mk (some "a") "A" "" "" (some [])] (some "a")
          (Row.mk (some "b") "Z" "" "" none))
        ≠ ids [Row.mk (some "a") "A" "" "" (some [])] :=
  ⟨by decide, by decide, rfl, rfl, by decide⟩

/-- C2: in a well-formed forest whose ids are globally unique, for an id that occurs in
it, `deleteRowRecursive` returns a forest; with `n` the node that has the id, the number
of nodes of the result is the number of nodes of the input minus (1 + the number of
descendants of `n`), the labels of the result in pre-order are those of the input without
the labels of `n` and of its descendants, and when the forest is the single root `n` the
result is the empty forest. -/
theorem deleteRowRecursive_removes_subtree (rows : List Row) (id : Option String)
    (hwf : wellFormed rows) (huniq : (ids rows).Nodup) (hmem : id ∈ ids rows) :
    ∃ rows' n, deleteRowRecursive rows id = some rows' ∧ findRowById rows id = some n ∧
      (preorder rows').length = (preorder rows).length - (1 + n.descendants.length) ∧
      1 + n.descendants.length ≤ (preorder rows).length ∧
      (preorder rows').map Row.label
        = ((preorder rows).map Row.label).filter (fun l => decide (l.id ∉ idsRow n)) ∧
      (rows = [n] → rows' = []) := by
  obtain ⟨rows', n, hdel, hfind, hlen, hlab⟩ := deleteRowRecursive_present id rows hwf huniq hmem
  refine ⟨rows', n, hdel, hfind, by omega, by omega, hlab, ?_⟩
  intro h
  subst h
  have hn := findRowById_id hfind
  subst hn
  simp [deleteRowRecursive] at hdel
  exact hdel

/-- Witness of C2: the root "a", which has the child "c", is deleted from the forest of
the roots "a" and "b". -/
theorem deleteRowRecursive_removes_subtree_witness :
    ∃ rows' n,
      deleteRowRecursive
          [Row.mk (some "a") "A" "" "" (some [Row.mk (some "c") "C" "" "" (some [])]),
            Row.mk (some "b") "B" "" "" (some [])] (some "a") = some rows' ∧
        findRowById
          [Row.mk (some "a") "A" "" "" (some [Row.mk (some "c") "C" "" "" (some [])]),
            Row.mk (some "b") "B" "" "" (some [])] (some "a") = some n ∧
        (preorder rows').length = 3 - (1 + n.descendants.length) := by
  obtain ⟨rows', n, h1, h2, h3, _⟩ := deleteRowRecursive_removes_subtree
    [Row.mk (some "a") "A" "" "" (some [Row.mk (some "c") "C" "" "" (some [])]),
      Row.mk (some "b") "B" "" "" (some [])] (some "a") (by decide) (by decide) (by decide)
  exact ⟨rows', n, h1, h2, h3⟩

/-- C3: in a well-formed forest whose ids are globally unique, for a parent id that occurs
in it and a new node `n` with empty children, `addNestedRowRecursive` returns a forest in
which every position of the input holds a node with the same id and fields; the node
whose id is the parent id has its former children followed by `n`; every other node has
the same children labels in the same order; and the forest has one node more. -/
theorem addNestedRowRecursive_appends_child (rows : List Row) (parentId : Option String)
    (n : Row) (hwf : wellFormed rows) (huniq : (ids rows).Nodup) (hmem : parentId ∈ ids rows)
    (hn : n.nestedData = some []) :
    ∃ rows', addNestedRowRecursive rows parentId n = some rows' ∧
      (∃ path parent, nodeAt rows path = some parent ∧ parent.id = parentId) ∧
      (∀ path row, nodeAt rows path = some row →
        ∃ row', nodeAt rows' path = some row' ∧ row'.label = row.label ∧
          (row.id = parentId →
            ∃ kids, row.nestedData = some kids ∧ row'.nestedData = some (kids ++ [n])) ∧
          (row.id ≠ parentId → row'.childLabels = row.childLabels)) ∧
      (preorder rows').length = (preorder rows).length + 1 := by
  obtain ⟨rows', h1, _, h3, h4⟩ := addNestedRowRecursive_present parentId n rows hwf huniq
  refine ⟨rows', h1, ?_, h4, ?_⟩
  · obtain ⟨parent, hp, hid⟩ := List.mem_map.1 hmem
    obtain ⟨path, hpath⟩ := exists_nodeAt_of_mem rows hp
    exact ⟨path, parent, hpath, hid⟩
  · rw [h3, if_pos hmem]
    cases n with
    | mk i f l d nd =>
      simp only [Row.nestedData_mk] at hn
      subst hn
      simp

/-- Witness of C3: the node "d" is added under the root "a", which has the child "c". -/
theorem addNestedRowRecursive_appends_child_witness :
    ∃ rows',
      addNestedRowRecursive
          [Row.mk (some "a") "A" "" "" (some [Row.mk (some "c") "C" "" "" (some [])]),
            Row.mk (some "b") "B" "" "" (some [])]
          (some "a") (Row.mk (some "d") "D" "" "" (some [])) = some rows' ∧
        (preorder rows').length = 3 + 1 := by
  obtain ⟨rows', h1, _, _, h4⟩ := addNestedRowRecursive_appends_child
    [Row.mk (some "a") "A" "" "" (some [Row.mk (some "c") "C" "" "" (some [])]),
      Row.mk (some "b") "B" "" "" (some [])]
    (some "a") (Row.mk (some "d") "D" "" "" (some [])) (by decide) (by decide) (by decide) rfl
  exact ⟨rows', h1, h4⟩

/-- C4: in a well-formed forest, for an id that occurs nowhere in it, `updateRowRecursive`
(for every replacement row), `deleteRowRecursive` and `addNestedRowRecursive` (for every
new node) each return the input forest, and none of them throws. -/
theorem missing_id_is_noop (rows : List Row) (id : Option String)
    (hwf : wellFormed rows) (hid : id ∉ ids rows) :
    (∀ r, updateRowRecursive rows id r = rows) ∧
      deleteRowRecursive rows id = some rows ∧
      (∀ n, addNestedRowRecursive rows id n = some rows) :=
  ⟨fun r => updateRowRecursive_absent id r rows hid,
    deleteRowRecursive_absent id rows hwf hid,
    fun n => addNestedRowRecursive_absent id n rows hid⟩

/-- Witness of C4: the id "x" does not occur in the forest of the roots "a" (with the
child "c") and "b". -/
theorem missing_id_is_noop_witness :
    wellFormed
        [Row.mk (some "a") "A" "" "" (some [Row.mk (some "c") "C" "" "" (some [])]),
          Row.mk (some "b") "B" "" "" (some [])] ∧
      some "x" ∉ ids
        [Row.mk (some "a") "A" "" "" (some [Row.mk (some "c") "C" "" "" (some [])]),
          Row.mk (some "b") "B" "" "" (some [])] ∧
      deleteRowRecursive
          [Row.mk (some "a") "A" "" "" (some [Row.mk (some "c") "C" "" "" (some [])]),
            Row.mk (some "b") "B" "" "" (some [])] (some "x")
        = some [Row.mk (some "a") "A" "" "" (some [Row.mk (some "c") "C" "" "" (some [])]),
            Row.mk (some "b") "B" "" "" (some [])] :=
  ⟨by decide, by decide,
    (missing_id_is_noop
      [Row.mk (some "a") "A" "" "" (some [Row.mk (some "c") "C" "" "" (some [])]),
        Row.mk (some "b") "B" "" "" (some [])] (some "x") (by decide) (by decide)).2.1⟩

/-- C5: for every forest and every id, `findRowById` returns the first node of the
forest in depth-first pre-order whose id is the given id, and it returns `null` exactly
when no node at any depth has that id. -/
theorem findRowById_first_in_preorder (rows : List Row) (id : Option String) :
    findRowById rows id = (preorder rows).find? (fun row => decide (row.id = id)) ∧
      (findRowById rows id = none ↔ id ∉ ids rows) :=
  ⟨findRowById_eq_find id rows, findRowById_eq_none_iff id rows⟩

/-- C6, as amended: in a well-formed forest whose ids are globally unique, the search for
an id in the result of deleting that id finds nothing; for an id that occurs in the forest
and a replacement row `r` whose own id is that id, the search in the result of the update
returns the node with that id, the field values of `r` and the children of the original
node; and for a parent id that occurs in the forest and a new node `n` whose id occurs
nowhere in it, the search for the id of `n` in the result of the insertion returns `n`. -/
theorem findRowById_after_mutation (rows : List Row) (hwf : wellFormed rows)
    (huniq : (ids rows).Nodup) :
    (∀ id, ∃ rows', deleteRowRecursive rows id = some rows' ∧ findRowById rows' id = none) ∧
      (∀ id r, id ∈ ids rows → r.id = id →
        ∃ n, findRowById rows id = some n ∧
          findRowById (updateRowRecursive rows id r) id
            = some (Row.mk id r.firstName r.lastName r.description n.nestedData)) ∧
      (∀ parentId n, parentId ∈ ids rows → n.id ∉ ids rows →
        ∃ rows', addNestedRowRecursive rows parentId n = some rows' ∧
          findRowById rows' n.id = some n) := by
  refine ⟨?_, ?_, ?_⟩
  · intro id
    obtain ⟨rows', h1, _, _, h4⟩ := deleteRowRecursive_total id rows hwf
    exact ⟨rows', h1, (findRowById_eq_none_iff id rows').2 h4⟩
  · intro id r hmem hr
    exact findRowById_updateRowRecursive id r hr rows hmem
  · intro parentId n hmem hfresh
    exact findRowById_addNestedRowRecursive parentId n rows hwf huniq hmem hfresh

/-- Witness of C6 as amended: in the forest of the roots "a" (with the child "c") and
"b", the node "c" is updated with a row whose id is "c". -/
theorem findRowById_after_mutation_witness :
    wellFormed
        [Row.mk (some "a") "A" "" "" (some [Row.mk (some "c") "C" "" "" (some [])]),
          Row.mk (some "b") "B" "" "" (some [])] ∧
      (ids [Row.mk (some "a") "A" "" "" (some [Row.mk (some "c") "C" "" "" (some [])]),
          Row.mk (some "b") "B" "" "" (some [])]).Nodup ∧
      ∃ n,
        findRowById
            [Row.mk (some "a") "A" "" "" (some [Row.mk (some "c") "C" "" "" (some [])]),
              Row.mk (some "b") "B" "" "" (some [])] (some "c") = some n ∧
          findRowById
              (updateRowRecursive
                [Row.mk (some "a") "A" "" "" (some [Row.mk (some "c") "C" "" "" (some [])]),
                  Row.mk (some "b") "B" "" "" (some [])]
                (some "c") (Row.mk (some "c") "Z" "" "" none)) (some "c")
            = some (Row.mk (some "c") "Z" "" "" n.nestedData) :=
  ⟨by decide, by decide,
    (findRowById_after_mutation
      [Row.mk (some "a") "A" "" "" (some [Row.mk (some "c") "C" "" "" (some [])]),
        Row.mk (some "b") "B" "" "" (some [])] (by decide) (by decide)).2.1
      (some "c") (Row.mk (some "c") "Z" "" "" none) (by decide) rfl⟩

/-- C6 as stated fails: the id "a" occurs in the one-node forest, and after the update
of "a" with a replacement row whose id is "b" the search for "a" finds nothing. -/
theorem findRowById_after_update_counterexample :
    wellFormed [Row.mk (some "a") "A" "" "" (some [])] ∧
      (ids [Row.mk (some "a") "A" "" "" (some [])]).Nodup ∧
      some "a" ∈ ids [Row.mk (some "a") "A" "" "" (some [])] ∧
      findRowById
          (updateRowRecursive [Row.mk (some "a") "A" "" "" (some [])] (some "a")
            (Row.mk (some "b") "Z" "" "" none)) (some "a")
        = none :=
  ⟨by decide, by decide, by decide,
    by simp [updateRowRecursive, updateRowMapFn]⟩

/-- C7: starting from the empty forest, after any sequence of actions of the component
(the four mutating operations among them) in which each generated id differs from every
id in the forest at that time, no two nodes of the forest share an id; the forest is well
formed, so that `deleteRow` and `addNestedRow` return a state from there. -/
theorem ids_unique_invariant (actions : List UserAction) (s : NestedTable)
    (hrun : run NestedTable.init actions = some s)
    (hfresh : freshIds NestedTable.init actions = true) :
    (ids s.data).Nodup ∧ wellFormed s.data ∧
      (∀ id, ∃ s', deleteRow s id = some s') ∧
      (∀ uuid, ∃ s', addNestedRow s uuid = some s') := by
  obtain ⟨hwf, hnd⟩ := run_preserves_unique actions NestedTable.init s
    (by simp [NestedTable.init]) (by simp [NestedTable.init]) hrun hfresh
  refine ⟨hnd, hwf, ?_, ?_⟩
  · intro id
    obtain ⟨rows', h1, _⟩ := deleteRowRecursive_total id s.data hwf
    exact ⟨{ s with data := rows' }, by simp [deleteRow, h1]⟩
  · intro uuid
    obtain ⟨rows', h1, _⟩ := addNestedRowRecursive_total s.currentParentId
      (Row.mk (some uuid) s.newRow.firstName s.newRow.lastName s.newRow.description (some []))
      s.data hwf
    exact ⟨closeModal { s with data := rows' }, by simp [addNestedRow, h1]⟩

/-- Witness of C7: a root "u1" is created, a child "u2" is added to it, the root is
edited and the child is deleted. -/
theorem ids_unique_invariant_witness :
    run NestedTable.init
        [.addOrUpdateRow "u1", .openModal (some "u1"), .handleInputChange .firstName "K",
          .addNestedRow "u2", .editRow (some "u1"), .handleInputChange .firstName "Z",
          .addOrUpdateRow "u3", .deleteRow (some "u2")]
      = some { data := [Row.mk (some "u1") "Z" "" "" (some [])], newRow := emptyRow,
               isEditing := false, modalIsOpen := false, currentParentId := none } ∧
      (ids [Row.mk (some "u1") "Z" "" "" (some [])]).Nodup :=
  ⟨rfl,
    (ids_unique_invariant
      [.addOrUpdateRow "u1", .openModal (some "u1"), .handleInputChange .firstName "K",
        .addNestedRow "u2", .editRow (some "u1"), .handleInputChange .firstName "Z",
        .addOrUpdateRow "u3", .deleteRow (some "u2")]
      { data := [Row.mk (some "u1") "Z" "" "" (some [])], newRow := emptyRow,
        isEditing := false, modalIsOpen := false, currentParentId := none }
      rfl (by decide)).1⟩

/-- C8: a sequence of root insertions made through the form on the initial state returns
a state whose forest has one root per call, the i-th root carrying the field values and
the generated id of the i-th call and an empty children sequence; on any state in create
mode the same sequence appends these roots after the existing ones, which are kept; and
one `addOrUpdateRow` in create mode on any state appends to the forest exactly one node,
with the draft's field values and empty children, after the existing roots. -/
theorem root_insertions_append (calls : List RootCall) :
    (∃ s, run NestedTable.init (insertRootsActions calls) = some s ∧
        s.data = calls.map
          (fun c => Row.mk (some c.uuid) c.firstName c.lastName c.description (some [])) ∧
        s.data.length = calls.length) ∧
      (∀ s : NestedTable, s.isEditing = false →
        ∃ s', run s (insertRootsActions calls) = some s' ∧
          s'.data = s.data ++ calls.map
            (fun c => Row.mk (some c.uuid) c.firstName c.lastName c.description (some []))) ∧
      ∀ (s : NestedTable) (uuid : String), s.isEditing = false →
        (addOrUpdateRow s uuid).data = s.data ++
          [Row.mk (some uuid) s.newRow.firstName s.newRow.lastName s.newRow.description
            (some [])] := by
  refine ⟨?_, ?_, ?_⟩
  · obtain ⟨s, h1, _, h3⟩ := run_insertRootsActions calls NestedTable.init rfl
    have h3' : s.data = calls.map
        (fun c => Row.mk (some c.uuid) c.firstName c.lastName c.description (some [])) := by
      simpa [NestedTable.init] using h3
    exact ⟨s, h1, h3', by simp [h3']⟩
  · intro s he
    obtain ⟨s', h1, _, h3⟩ := run_insertRootsActions calls s he
    exact ⟨s', h1, h3⟩
  · intro s uuid he
    simp [addOrUpdateRow, he]

/-- Witness of C8: two root insertions, and one insertion in create mode on a state that
already holds a root. -/
theorem root_insertions_append_witness :
    (∃ s, run NestedTable.init
          (insertRootsActions [⟨"A", "a", "x", "u1"⟩, ⟨"B", "b", "y", "u2"⟩]) = some s ∧
        s.data = [Row.mk (some "u1") "A" "a" "x" (some []),
          Row.mk (some "u2") "B" "b" "y" (some [])]) ∧
      (addOrUpdateRow
          { data := [Row.mk (some "u1") "A" "" "" (some [])],
            newRow := Row.mk none "B" "" "" none,
            isEditing := false, modalIsOpen := false, currentParentId := none } "u2").data
        = [Row.mk (some "u1") "A" "" "" (some []), Row.mk (some "u2") "B" "" "" (some [])] := by
  refine ⟨?_, ?_⟩
  · obtain ⟨s, h1, h2, _⟩ :=
      (root_insertions_append [⟨"A", "a", "x", "u1"⟩, ⟨"B", "b", "y", "u2"⟩]).1
    exact ⟨s, h1, h2⟩
  · exact (root_insertions_append []).2.2
      { data := [Row.mk (some "u1") "A" "" "" (some [])],
        newRow := Row.mk none "B" "" "" none,
        isEditing := false, modalIsOpen := false, currentParentId := none } "u2" rfl

/-- C9, as amended: in every state reached from the initial state through the handlers
(`editRow` on an id that the search finds), a draft id that is not `null` implies that
`isEditing` is true, and `addOrUpdateRow` then creates no node (same number of roots, same
number of nodes); when a node with the draft id is still in the forest, the node found
under that id afterwards has that id, the draft's field values and the very children of
the node found before; when no node has the draft id any more, the forest is left as it
was; and when the generated ids were fresh the resulting forest is the former one
relabelled through `setFields` for the draft id and the draft. -/
theorem draft_id_implies_editing (actions : List UserAction) (s : NestedTable)
    (hrun : run NestedTable.init actions = some s) (hid : s.newRow.id ≠ none) :
    s.isEditing = true ∧
      ∀ uuid,
        (addOrUpdateRow s uuid).data.length = s.data.length ∧
        (preorder (addOrUpdateRow s uuid).data).length = (preorder s.data).length ∧
        (s.newRow.id ∈ ids s.data →
          ∃ n, findRowById s.data s.newRow.id = some n ∧
            findRowById (addOrUpdateRow s uuid).data s.newRow.id
              = some (Row.mk s.newRow.id s.newRow.firstName s.newRow.lastName
                  s.newRow.description n.nestedData)) ∧
        (s.newRow.id ∉ ids s.data → (addOrUpdateRow s uuid).data = s.data) ∧
        (freshIds NestedTable.init actions = true →
          (addOrUpdateRow s uuid).data = relabel (setFields s.newRow.id s.newRow) s.data) := by
  have he : s.isEditing = true :=
    run_preserves_mode actions NestedTable.init s (by simp [NestedTable.init]) hrun hid
  have hdata : ∀ uuid, (addOrUpdateRow s uuid).data
      = updateRowRecursive s.data s.newRow.id s.newRow := by
    intro uuid
    simp [addOrUpdateRow, he]
  refine ⟨he, fun uuid => ?_⟩
  rw [hdata uuid]
  refine ⟨length_updateRowRecursive _ _ _, ?_, ?_, ?_, ?_⟩
  · have h := congrArg List.length (ids_updateRowRecursive s.newRow s.data)
    simpa [ids] using h
  · intro hmem
    exact findRowById_updateRowRecursive s.newRow.id s.newRow rfl s.data hmem
  · intro habs
    exact updateRowRecursive_absent s.newRow.id s.newRow s.data habs
  · intro hfresh
    obtain ⟨_, hnd⟩ := run_preserves_unique actions NestedTable.init s
      (by simp [NestedTable.init]) (by simp [NestedTable.init]) hrun hfresh
    exact updateRowRecursive_eq_relabel s.newRow.id s.newRow rfl s.data hnd

/-- Witness of C9 as amended: a root "u1" is created and edited, "Z" is typed and the
button is pressed. -/
theorem draft_id_implies_editing_witness :
    run NestedTable.init
        [.addOrUpdateRow "u1", .editRow (some "u1"), .handleInputChange .firstName "Z"]
      = some { data := [Row.mk (some "u1") "" "" "" (some [])],
               newRow := Row.mk (some "u1") "Z" "" "" (some []),
               isEditing := true, modalIsOpen := false, currentParentId := none } ∧
      (Row.mk (some "u1") "Z" "" "" (some [])).id ≠ none ∧
      ∃ n, findRowById [Row.mk (some "u1") "" "" "" (some [])] (some "u1") = some n ∧
        findRowById
            (addOrUpdateRow
              { data := [Row.mk (some "u1") "" "" "" (some [])],
                newRow := Row.mk (some "u1") "Z" "" "" (some []),
                isEditing := true, modalIsOpen := false, currentParentId := none } "u9").data
            (some "u1")
          = some (Row.mk (some "u1") "Z" "" "" n.nestedData) :=
  ⟨rfl, by decide,
    ((draft_id_implies_editing
        [.addOrUpdateRow "u1", .editRow (some "u1"), .handleInputChange .firstName "Z"]
        { data := [Row.mk (some "u1") "" "" "" (some [])],
          newRow := Row.mk (some "u1") "Z" "" "" (some []),
          isEditing := true, modalIsOpen := false, currentParentId := none }
        rfl (by decide)).2 "u9").2.2.1 (by decide)⟩

/-- C9 as stated fails: a root "u1" is created, edited and deleted, and "Z" is typed; the
draft id is "u1" and `isEditing` is true, the generated ids were fresh, the forest is
empty, and `addOrUpdateRow` leaves it empty: no node is updated. -/
theorem draft_id_without_node_counterexample :
    run NestedTable.init
        [.addOrUpdateRow "u1", .editRow (some "u1"), .deleteRow (some "u1"),
          .handleInputChange .firstName "Z"]
      = some { data := [], newRow := Row.mk (some "u1") "Z" "" "" (some []),
               isEditing := true, modalIsOpen := false, currentParentId := none } ∧
      freshIds NestedTable.init
        [.addOrUpdateRow "u1", .editRow (some "u1"), .deleteRow (some "u1"),
          .handleInputChange .firstName "Z"] = true ∧
      (Row.mk (some "u1") "Z" "" "" (some [])).id ≠ none ∧
      (addOrUpdateRow
          { data := [], newRow := Row.mk (some "u1") "Z" "" "" (some []),
            isEditing := true, modalIsOpen := false, currentParentId := none } "u2").data
        = [] :=
  ⟨rfl, by decide, by decide, rfl⟩

/-- C10: on a well-formed forest in which every node has an id, for an id `x` that occurs
in it and any `p`, `editRow x` returns a state; after `openModal p`, whatever is typed
into the modal, and then `closeModal` or `addNestedRow` (which returns a state),
`isEditing` is still true and the draft id is `null`; whatever is then typed into the
inputs, `addOrUpdateRow` leaves the forest equal to what it was before it, and sets
`isEditing` to false. -/
theorem editing_flag_outlives_draft (s : NestedTable) (x p : Option String)
    (hwf : wellFormed s.data) (hids : idsAssigned s.data) (hx : x ∈ ids s.data) :
    ∃ s1, editRow s x = some s1 ∧
      ∀ inModal : List (InputName × String),
        (∀ uuid, ∃ s3, addNestedRow (typeInputs (openModal s1 p) inModal) uuid = some s3) ∧
        ∀ s3, (s3 = closeModal (typeInputs (openModal s1 p) inModal) ∨
            ∃ uuid, addNestedRow (typeInputs (openModal s1 p) inModal) uuid = some s3) →
          s3.isEditing = true ∧ s3.newRow.id = none ∧
            ∀ (typed : List (InputName × String)) (uuid : String),
              (typeInputs s3 typed).isEditing = true ∧
                (typeInputs s3 typed).newRow.id = none ∧
                (typeInputs s3 typed).data = s3.data ∧
                (addOrUpdateRow (typeInputs s3 typed) uuid).data = s3.data ∧
                (addOrUpdateRow (typeInputs s3 typed) uuid).isEditing = false := by
  cases hfind : findRowById s.data x with
  | none => exact absurd hx ((findRowById_eq_none_iff x s.data).1 hfind)
  | some row =>
    refine ⟨{ s with newRow := row, isEditing := true }, by simp [editRow, hfind], ?_⟩
    intro inModal
    obtain ⟨m1, m2, _⟩ := typeInputs_frame inModal
      (openModal { s with newRow := row, isEditing := true } p)
    have m1' : (typeInputs (openModal { s with newRow := row, isEditing := true } p)
        inModal).isEditing = true := m1
    have m2' : (typeInputs (openModal { s with newRow := row, isEditing := true } p)
        inModal).data = s.data := m2
    generalize typeInputs (openModal { s with newRow := row, isEditing := true } p) inModal
      = t at m1' m2'
    refine ⟨?_, ?_⟩
    · intro uuid
      obtain ⟨rows', h1, _⟩ := addNestedRowRecursive_total t.currentParentId
        (Row.mk (some uuid) t.newRow.firstName t.newRow.lastName t.newRow.description (some []))
        s.data hwf
      exact ⟨closeModal { t with data := rows' }, by simp [addNestedRow, m2', h1]⟩
    · intro s3 hs3
      have key : s3.isEditing = true ∧ s3.newRow.id = none ∧ idsAssigned s3.data := by
        rcases hs3 with rfl | ⟨uuid, hadd⟩
        · exact ⟨m1', rfl, by simpa [closeModal, m2'] using hids⟩
        · obtain ⟨rows', h1, _, h3⟩ := addNestedRowRecursive_total t.currentParentId
            (Row.mk (some uuid) t.newRow.firstName t.newRow.lastName t.newRow.description
              (some [])) s.data hwf
          simp only [addNestedRow, m2', h1, Option.some.injEq] at hadd
          subst hadd
          refine ⟨m1', rfl, ?_⟩
          intro hnone
          rcases h3 none hnone with h | h
          · exact hids h
          · simp at h
      obtain ⟨he, hid, hass⟩ := key
      refine ⟨he, hid, ?_⟩
      intro typed uuid
      obtain ⟨t1, t2, t3⟩ := typeInputs_frame typed s3
      have hfin := addOrUpdateRow_stale_editing (typeInputs s3 typed) uuid (t1.trans he)
        (t3.trans hid) (by rw [t2]; exact hass)
      exact ⟨t1.trans he, t3.trans hid, t2, hfin.1.trans t2, hfin.2⟩

/-- Witness of C10: the forest holds the roots "u1" and "u2"; "u1" is edited, the modal
is opened on "u2" and closed, "Z" is typed and the button is pressed. -/
theorem editing_flag_outlives_draft_witness :
    wellFormed [Row.mk (some "u1") "A" "" "" (some []), Row.mk (some "u2") "B" "" "" (some [])] ∧
      idsAssigned
        [Row.mk (some "u1") "A" "" "" (some []), Row.mk (some "u2") "B" "" "" (some [])] ∧
      ∃ s1,
        editRow
            { data := [Row.mk (some "u1") "A" "" "" (some []),
                Row.mk (some "u2") "B" "" "" (some [])],
              newRow := emptyRow, isEditing := false, modalIsOpen := false,
              currentParentId := none } (some "u1") = some s1 ∧
          (closeModal (openModal s1 (some "u2"))).isEditing = true ∧
          (addOrUpdateRow
              (typeInputs (closeModal (openModal s1 (some "u2"))) [(.firstName, "Z")]) "u9").data
            = (closeModal (openModal s1 (some "u2"))).data := by
  refine ⟨by decide, by decide, ?_⟩
  obtain ⟨s1, h1, h3⟩ := editing_flag_outlives_draft
    { data := [Row.mk (some "u1") "A" "" "" (some []),
        Row.mk (some "u2") "B" "" "" (some [])],
      newRow := emptyRow, isEditing := false, modalIsOpen := false,
      currentParentId := none } (some "u1") (some "u2") (by decide) (by decide) (by decide)
  obtain ⟨h4, _, h5⟩ := (h3 []).2 (closeModal (openModal s1 (some "u2"))) (Or.inl rfl)
  exact ⟨s1, h1, h4, (h5 [(.firstName, "Z")] "u9").2.2.2.1⟩
